import Mathlib

/-!
# hardinfo, dmi_util.c: DMI attribute resolution and dmidecode text scans

A shallow embedding of `dmi_util.c`.  A C string is the list of the
characters that precede its terminating NUL; a pointer that may be NULL is
an `Option`.  The file system and the `dmidecode` child process are an
explicit environment `Env`.  Library routines (`strcmp`, `strcasecmp`,
`strncmp`, `strchr`, `sscanf`, `snprintf`, `g_strstrip`) are modelled after
their documented behaviour.
-/

namespace DmiUtil

/-- A C string: the characters before the terminating NUL. -/
abbrev CStr := List Char

/-! ## Library routines -/

/-- The libc `tolower` in the C locale: only `A`..`Z` are mapped. -/
def tolower (c : Char) : Char :=
  if 'A' ≤ c ∧ c ≤ 'Z' then Char.ofNat (c.toNat + 32) else c

/-- The libc `strcmp`; only the sign of the result is specified, so the model
returns `-1`, `0` or `1`. -/
def strcmp : CStr → CStr → Int
  | [], [] => 0
  | [], _ :: _ => -1
  | _ :: _, [] => 1
  | a :: s, b :: t => if a = b then strcmp s t else if a < b then -1 else 1

/-- The libc `strcasecmp`: `strcmp` on the lower-cased characters. -/
def strcasecmp : CStr → CStr → Int
  | [], [] => 0
  | [], _ :: _ => -1
  | _ :: _, [] => 1
  | a :: s, b :: t =>
    if tolower a = tolower b then strcasecmp s t
    else if tolower a < tolower b then -1 else 1

/-- The libc `strncmp`: compares at most `n` characters. -/
def strncmp : CStr → CStr → Nat → Int
  | _, _, 0 => 0
  | [], [], _ + 1 => 0
  | [], _ :: _, _ + 1 => -1
  | _ :: _, [], _ + 1 => 1
  | a :: s, b :: t, n + 1 => if a = b then strncmp s t n else if a < b then -1 else 1

/-- The libc `strlen`. -/
def strlen (s : CStr) : Nat := s.length

/-- The libc `strchr`: the suffix of `p` that starts at the first occurrence of
`c`, or NULL. -/
def strchr : CStr → Char → Option CStr
  | [], _ => none
  | a :: s, c => if a = c then some (a :: s) else strchr s c

/-- The character `*(p + i)` of a C string; the terminator is read at the end. -/
def charAt : CStr → Nat → Char
  | [], _ => Char.ofNat 0
  | a :: _, 0 => a
  | _ :: s, i + 1 => charAt s i

/-- The value of `PATH_MAX` in the Linux `limits.h`. -/
def PATH_MAX : Nat := 4096

/-- The libc `snprintf(buf, size, ...)` applied to the already formatted
text: at most `size - 1` characters are stored. -/
def snprintf (size : Nat) (formatted : CStr) : CStr := formatted.take (size - 1)

/-- The libc `isspace` in the C locale. -/
def isspace (c : Char) : Bool :=
  c = ' ' ∨ c = '\t' ∨ c = '\n' ∨ c = Char.ofNat 11 ∨ c = Char.ofNat 12 ∨ c = '\r'

/-- GLib `g_ascii_isspace`: space, tab, newline, form feed, carriage return. -/
def g_ascii_isspace (c : Char) : Bool :=
  c = ' ' ∨ c = '\t' ∨ c = '\n' ∨ c = Char.ofNat 12 ∨ c = '\r'

/-- GLib `g_strstrip`: removes leading and trailing `g_ascii_isspace`
characters. -/
def g_strstrip (s : CStr) : CStr :=
  ((s.dropWhile g_ascii_isspace).reverse.dropWhile g_ascii_isspace).reverse

/-- Value of a hexadecimal digit. -/
def hexval (c : Char) : Option Nat :=
  if '0' ≤ c ∧ c ≤ '9' then some (c.toNat - 48)
  else if 'a' ≤ c ∧ c ≤ 'f' then some (c.toNat - 87)
  else if 'A' ≤ c ∧ c ≤ 'F' then some (c.toNat - 55)
  else none

/-- Value of a run of hexadecimal digits, most significant first. -/
def hexnum (ds : CStr) : Nat :=
  ds.foldl (fun acc c => 16 * acc + (hexval c).getD 0) 0

/-- Ordinary characters of a `scanf` format matched against the input:
the rest of the input, or the value `sscanf` returns when no conversion was
made yet (`-1`, EOF, at the end of the input; `0` on a mismatch). -/
def match_chars : CStr → CStr → Except Int CStr
  | [], p => .ok p
  | _ :: _, [] => .error (-1)
  | f :: fs, c :: p => if c = f then match_chars fs p else .error 0

/-- The `%X` conversion as the first conversion of a `sscanf` call (glibc,
LP64): leading white space is skipped; end of input gives EOF; then an
optional sign, an optional `0x`, hexadecimal digits.  The result is what
`strtoul` gives in base 16, stored in an `unsigned int`. -/
def conv_X (p : CStr) : Int × Option Nat :=
  match p.dropWhile isspace with
  | [] => (-1, none)
  | c :: rest =>
    let neg : Bool := c = '-'
    let q : CStr := if c = '-' ∨ c = '+' then rest else c :: rest
    let digits : Option CStr :=
      match q with
      | '0' :: x :: r =>
        if x = 'x' ∨ x = 'X' then some (r.takeWhile fun d => (hexval d).isSome)
        else some (q.takeWhile fun d => (hexval d).isSome)
      | _ =>
        let ds := q.takeWhile fun d => (hexval d).isSome
        if ds = [] then none else some ds
    match digits with
    | none => (0, none)
    | some ds =>
      let v := hexnum ds
      let ul := if 2 ^ 64 ≤ v then 2 ^ 64 - 1 else if neg then (2 ^ 64 - v) % 2 ^ 64 else v
      (1, some (ul % 2 ^ 32))

/-- The scan of `sscanf(p, "Handle 0x%X", &ch)`: the value returned and the
value converted, if any.  The blank of the format skips any white space. -/
def scan_Handle (p : CStr) : Int × Option Nat :=
  match match_chars "Handle".toList p with
  | .error r => (r, none)
  | .ok p1 =>
    match match_chars "0x".toList (p1.dropWhile isspace) with
    | .error r => (r, none)
    | .ok p2 => conv_X p2

/-- The call `sscanf(p, "Handle 0x%X", &ch)`: the value returned and the
content of `ch` afterwards (unchanged unless the conversion succeeded). -/
def sscanf_Handle (p : CStr) (ch : Nat) : Int × Nat :=
  ((scan_Handle p).1, (scan_Handle p).2.getD ch)

/-- The C operator `!` on an `int`. -/
def lnot (x : Int) : Int := if x = 0 then 1 else 0

/-- Modelled from the spec: `strend` is defined in the repository's `util.c`,
which is not among the sources.  It ends the string at the first occurrence
of `chr` (section 9: the scans insert terminators while walking the buffer;
they call it right after `strchr` has found the newline, so that `sscanf`,
`strncmp` and `strdup` see one line) and returns the string. -/
def strend : CStr → Char → CStr
  | [], _ => []
  | a :: s, chr => if a = chr then [] else a :: strend s chr

/-! ## The environment -/

/-- What the code observes of the machine. -/
structure Env where
  /-- `access(path, F_OK) != -1` -/
  access : CStr → Bool
  /-- `g_file_get_contents(path, &ret, NULL, NULL)`: the contents on success -/
  g_file_get_contents : CStr → Option CStr
  /-- `g_spawn_command_line_sync(cmd, &out, &err, &status, NULL)`: standard
  output, standard error and exit status when the child was spawned -/
  g_spawn_command_line_sync : CStr → Option (CStr × CStr × Int)

/-! ## dmi_util.c -/

/-- The deny-list of `ignore_placeholder_strings`, in source order. -/
def DMI_IGNORE_list : List CStr :=
  [ "To be filled by O.E.M.".toList,
    "System Product Name".toList,
    "System Manufacturer".toList,
    "System Version".toList,
    "Default String".toList,
    "Rev X.0x".toList,
    "x.x".toList,
    "XX".toList,
    "NA".toList ]

/-- The chain of `DMI_IGNORE(m)` tests: the first `m` with
`strcasecmp(m, *pstr) == 0` frees the string, sets it NULL and returns 1;
after the last one the function returns 0. -/
def DMI_IGNORE_chain : List CStr → CStr → Int × Option CStr
  | [], str => (0, some str)
  | m :: ms, str => if strcasecmp m str = 0 then (1, none) else DMI_IGNORE_chain ms str

/-- `ignore_placeholder_strings(gchar **pstr)`: the argument is `pstr`
(NULL, or a cell holding a string or NULL); the result is the value returned
and the content of the cell afterwards. -/
def ignore_placeholder_strings (pstr : Option (Option CStr)) : Int × Option CStr :=
  match pstr with
  | none => (-1, none)
  | some none => (-1, none)
  | some (some str) => DMI_IGNORE_chain DMI_IGNORE_list str

/-- The `candidates` array of `dmi_sysfs_root`. -/
def candidates : List CStr :=
  [ "/sys/devices/virtual/dmi".toList, "/sys/class/dmi".toList ]

/-- The `while` loop of `dmi_sysfs_root`. -/
def dmi_sysfs_root_loop (env : Env) : List CStr → Option CStr
  | [] => none
  | c :: cs => if env.access c then some c else dmi_sysfs_root_loop env cs

/-- `dmi_sysfs_root()`. -/
def dmi_sysfs_root (env : Env) : Option CStr := dmi_sysfs_root_loop env candidates

/-- The table `tab_dmi_sysfs` of `dmi_get_str_abs` (dmidecode keyword, sysfs
path). -/
def tab_dmi_sysfs : List (CStr × CStr) :=
  [ ("bios-release-date".toList, "id/bios_date".toList),
    ("bios-vendor".toList, "id/bios_vendor".toList),
    ("bios-version".toList, "id/bios_version".toList),
    ("baseboard-product-name".toList, "id/board_name".toList),
    ("baseboard-manufacturer".toList, "id/board_vendor".toList),
    ("baseboard-version".toList, "id/board_version".toList),
    ("baseboard-serial-number".toList, "id/board_serial".toList),
    ("baseboard-asset-tag".toList, "id/board_asset_tag".toList),
    ("system-product-name".toList, "id/product_name".toList),
    ("system-manufacturer".toList, "id/sys_vendor".toList),
    ("system-serial-number".toList, "id/product_serial".toList),
    ("system-product-family".toList, "id/product_family".toList),
    ("system-version".toList, "id/product_version".toList),
    ("system-uuid".toList, "product_uuid".toList),
    ("chassis-type".toList, "id/chassis_type".toList),
    ("chassis-serial-number".toList, "id/chassis_serial".toList),
    ("chassis-manufacturer".toList, "id/chassis_vendor".toList),
    ("chassis-version".toList, "id/chassis_version".toList),
    ("chassis-asset-tag".toList, "id/chassis_asset_tag".toList) ]

/-- The sysfs loop of `dmi_get_str_abs`: every table entry whose id equals
`id_str` is tried; the first successful read ends the loop
(`goto dmi_str_done`). -/
def sysfs_loop (env : Env) (dmi_root id_str : CStr) : List (CStr × CStr) → Option CStr
  | [] => none
  | (id, path) :: tab =>
    if strcmp id_str id = 0 then
      match env.g_file_get_contents (snprintf PATH_MAX (dmi_root ++ '/' :: path)) with
      | some ret => some ret
      | none => sysfs_loop env dmi_root id_str tab
    else sysfs_loop env dmi_root id_str tab

/-- The command line `dmidecode -s <id_str>` as `dmi_get_str_abs` formats it
into `full_path`. -/
def dmidecode_s_command (id_str : CStr) : CStr :=
  snprintf PATH_MAX ("dmidecode -s ".toList ++ id_str)

/-- The part of `dmi_get_str_abs` before the label `dmi_str_done`: sysfs
first, then dmidecode. -/
def dmi_get_str_raw (env : Env) (id_str : CStr) : Option CStr :=
  let fromSysfs : Option CStr :=
    match dmi_sysfs_root env with
    | some dmi_root => sysfs_loop env dmi_root id_str tab_dmi_sysfs
    | none => none
  match fromSysfs with
  | some ret => some ret
  | none =>
    match env.g_spawn_command_line_sync (dmidecode_s_command id_str) with
    | some (out, _, i) => if i = 0 then some out else none
    | none => none

/-- The code after the label `dmi_str_done`. -/
def dmi_str_done (ret : Option CStr) : Option CStr :=
  match ret with
  | some r => some (g_strstrip (strend r '\n'))
  | none => none

/-- `dmi_get_str_abs(id_str)`. -/
def dmi_get_str_abs (env : Env) (id_str : CStr) : Option CStr :=
  dmi_str_done (dmi_get_str_raw env id_str)

/-- `dmi_str_status(id_str)`. -/
def dmi_str_status (env : Env) (id_str : CStr) : Int :=
  let str := dmi_get_str_abs env id_str
  let ret : Int := 1
  let ret : Int := if str = none then 0 else ret
  let ret : Int := if (ignore_placeholder_strings (some str)).1 > 0 then -1 else ret
  ret

/-- `dmi_get_str(id_str)`. -/
def dmi_get_str (env : Env) (id_str : CStr) : Option CStr :=
  let ret := dmi_get_str_abs env id_str
  let ret : Option CStr :=
    match ret with
    | some [] => none
    | other => other
  (ignore_placeholder_strings (some ret)).2

/-- `dmidecode_read(dmi_type)`: the standard output of `dmidecode -t <type>`
(or of `dmidecode` when `dmi_type` is NULL), NULL unless the child was spawned
and exited with status 0. -/
def dmidecode_read (env : Env) (dmi_type : Option Nat) : Option CStr :=
  let full_path : CStr :=
    match dmi_type with
    | some t => snprintf PATH_MAX ("dmidecode -t ".toList ++ Nat.toDigits 10 t)
    | none => snprintf PATH_MAX "dmidecode".toList
  match env.g_spawn_command_line_sync full_path with
  | some (out, _, i) => if i = 0 then some out else none
  | none => none

/-- Modelled from the spec: the type `dmi_handle_list` is declared in
`dmi_util.h`, which is not among the sources: a count and an array of
handles (section 4.6), as `dmi_handle_list_add` uses them. -/
structure dmi_handle_list where
  /-- number of handles stored -/
  count : Nat
  /-- the array `handles` -/
  handles : List Nat
deriving DecidableEq, Repr

/-- The libc `realloc` on an array of the handle list: the first cells are
kept; a cell gained holds an indeterminate value, written 0. -/
def realloc (a : List Nat) (n : Nat) : List Nat :=
  a.take n ++ List.replicate (n - a.length) 0

/-- `dmi_handle_list_add(hl, new_handle)`. -/
def dmi_handle_list_add (hl : Option dmi_handle_list) (new_handle : Nat) :
    Option dmi_handle_list :=
  match hl with
  | none => some ⟨1, (List.replicate 1 0).set (1 - 1) new_handle⟩
  | some l =>
    let count := l.count + 1
    some ⟨count, (realloc l.handles count).set (count - 1) new_handle⟩

/-- The handles a list pointer stands for: none for NULL, else the first
`count` cells of the array. -/
def hl_handles (hl : Option dmi_handle_list) : List Nat :=
  match hl with
  | none => []
  | some l => l.handles.take l.count

/-- The `while` loop of `dmidecode_handles`; `fuel` bounds the number of
iterations, `p` is the text from the cursor on. -/
def dmidecode_handles_loop : Nat → CStr → Option dmi_handle_list → Nat → Option dmi_handle_list
  | 0, _, hl, _ => hl
  | fuel + 1, p, hl, ch =>
    match strchr p '\n' with
    | none => hl
    | some next_nl =>
      let line := strend p '\n'
      let r := sscanf_Handle line ch
      let hl := if r.1 > 0 then dmi_handle_list_add hl r.2 else hl
      dmidecode_handles_loop fuel next_nl.tail hl r.2

/-- `dmidecode_handles(dmi_type)`.  Every iteration moves the cursor past one
newline, so `length + 1` iterations are enough. -/
def dmidecode_handles (env : Env) (dmi_type : Option Nat) : Option dmi_handle_list :=
  match dmidecode_read env dmi_type with
  | none => none
  | some full => dmidecode_handles_loop (full.length + 1) full none 0

/-- The `while` loop of `dmidecode_match`; the condition of the outer `if` is
the source expression `!sscanf(...) > 0`, that is `(!sscanf(...)) > 0`.  The
nested tests have no effect besides moving `p`, so they are one conjunction.
`ln` is an `int` in the source: names are taken to be shorter than `2 ^ 31`
characters.  `ch` is an `unsigned int` and is compared with the
`unsigned long` the filter points to. -/
def dmidecode_match_loop (name : CStr) (handle : Option Nat) : Nat → CStr → Nat → Option CStr
  | 0, _, _ => none
  | fuel + 1, p, ch =>
    match strchr p '\n' with
    | none => none
    | some next_nl =>
      let ln := strlen name
      let line := strend p '\n'
      let r := sscanf_Handle line ch
      let q := line.dropWhile (· = '\t')
      if lnot r.1 > 0 ∧ (handle = none ∨ handle = some r.2) ∧
          strncmp q name ln = 0 ∧ charAt q ln = ':' then
        some ((q.drop (ln + 1)).dropWhile (· = ' '))
      else dmidecode_match_loop name handle fuel next_nl.tail r.2

/-- `dmidecode_match(name, dmi_type, handle)`. -/
def dmidecode_match (env : Env) (name : Option CStr) (dmi_type handle : Option Nat) :
    Option CStr :=
  match name with
  | none => none
  | some name =>
    match dmidecode_read env dmi_type with
    | none => none
    | some full => dmidecode_match_loop name handle (full.length + 1) full 0

/-- The `while` loop of `dmidecode_match_value`. -/
def dmidecode_match_value_loop (name : CStr) (value : Option CStr) :
    Nat → CStr → Option dmi_handle_list → Nat → Option dmi_handle_list
  | 0, _, hl, _ => hl
  | fuel + 1, p, hl, ch =>
    match strchr p '\n' with
    | none => hl
    | some next_nl =>
      let ln := strlen name
      let lnv := match value with
        | some v => strlen v
        | none => 0
      let line := strend p '\n'
      let r := sscanf_Handle line ch
      let q := line.dropWhile (· = '\t')
      let hl :=
        if lnot r.1 > 0 ∧ strncmp q name ln = 0 ∧ charAt q ln = ':' ∧
            (value = none ∨
              strncmp ((q.drop (ln + 1)).dropWhile (· = ' ')) (value.getD []) lnv = 0) then
          dmi_handle_list_add hl r.2
        else hl
      dmidecode_match_value_loop name value fuel next_nl.tail hl r.2

/-- `dmidecode_match_value(name, value, dmi_type)`. -/
def dmidecode_match_value (env : Env) (name value : Option CStr) (dmi_type : Option Nat) :
    Option dmi_handle_list :=
  match name with
  | none => none
  | some name =>
    match dmidecode_read env dmi_type with
    | none => none
    | some full => dmidecode_match_value_loop name value (full.length + 1) full none 0

/-! ## Notions of the specification -/

/-- Two strings are equal ignoring letter case. -/
def eq_ignoring_case (a b : CStr) : Prop := a.map tolower = b.map tolower

/-- A string is a deny-list placeholder: it equals one of the deny-list
strings as a whole, ignoring letter case. -/
def is_placeholder (s : CStr) : Prop := ∃ m ∈ DMI_IGNORE_list, eq_ignoring_case m s

/-- An environment in which the primary sysfs root exists and every file
under it has the given contents; no child process can be spawned. -/
def env_sysfs (contents : CStr) : Env :=
  ⟨fun p => p = "/sys/devices/virtual/dmi".toList, fun _ => some contents, fun _ => none⟩

/-- A text with one trailing newline, if it has one, removed. -/
def strip_trailing_newline (c : CStr) : CStr :=
  if c.getLast? = some '\n' then c.dropLast else c

/-- The normal form the specification gives: a single trailing newline
removed, then surrounding white space trimmed. -/
def spec_normalize (c : CStr) : CStr := g_strstrip (strip_trailing_newline c)

/-- The part of a text before its first newline (all of it when it has none). -/
def first_line (c : CStr) : CStr := c.takeWhile (· ≠ '\n')

/-- An environment without sysfs root in which every command is spawned,
prints the given text and exits with status 0. -/
def env_dmidecode (out : CStr) : Env :=
  ⟨fun _ => false, fun _ => none, fun _ => some (out, [], 0)⟩

/-- The lines of a text: the pieces between newlines; the piece after the
last newline is a line when it is not empty (an unterminated final line). -/
def text_lines : CStr → List CStr
  | [] => []
  | c :: s =>
    if c = '\n' then [] :: text_lines s
    else
      match text_lines s with
      | [] => [[c]]
      | l :: ls => (c :: l) :: ls

/-- The newline-terminated lines of a text: its lines without an unterminated
final line. -/
def terminated_lines : CStr → List CStr
  | [] => []
  | c :: s =>
    if c = '\n' then [] :: terminated_lines s
    else
      match terminated_lines s with
      | [] => []
      | l :: ls => (c :: l) :: ls

/-- All lines of the text are newline-terminated. -/
def nl_terminated (text : CStr) : Prop := text = [] ∨ text.getLast? = some '\n'

/-- The handle a line carries when it is a handle line, a line that the scan
with the format `Handle 0x%X` converts. -/
def handle_of (l : CStr) : Option Nat := (scan_Handle l).2

/-- The value of the field `name` on a line: the line is not a handle line
and, leading tabs stripped, begins with `name` followed immediately by a
colon; the value is what follows the colon, spaces skipped. -/
def field_value (name l : CStr) : Option CStr :=
  if handle_of l = none ∧ (name ++ [':']).isPrefixOf (l.dropWhile (· = '\t')) then
    some (((l.dropWhile (· = '\t')).drop (name.length + 1)).dropWhile (· = ' '))
  else none

/-- A line is a field line for `name` whose value starts with `value` (any
value when `value` is unspecified). -/
def value_matches (name : CStr) (value : Option CStr) (l : CStr) : Bool :=
  match field_value name l with
  | some v =>
    match value with
    | none => true
    | some w => w.isPrefixOf v
  | none => false

/-- The records of a list of lines: every handle line opens a record, made of
its handle and of the lines that follow up to the next handle line. -/
def records : List CStr → List (Nat × List CStr)
  | [] => []
  | l :: ls =>
    match handle_of l with
    | some h => (h, ls.takeWhile fun m => (handle_of m).isNone) :: records ls
    | none => records ls

/-- The lines that precede the first handle line. -/
def preamble (ls : List CStr) : List CStr := ls.takeWhile fun m => (handle_of m).isNone

/-- The loop of `dmidecode_match` as a recursion over the lines it visits. -/
def match_lines (name : CStr) (handle : Option Nat) : List CStr → Nat → Option CStr
  | [], _ => none
  | line :: rest, ch =>
    let ln := strlen name
    let r := sscanf_Handle line ch
    let q := line.dropWhile (· = '\t')
    if lnot r.1 > 0 ∧ (handle = none ∨ handle = some r.2) ∧
        strncmp q name ln = 0 ∧ charAt q ln = ':' then
      some ((q.drop (ln + 1)).dropWhile (· = ' '))
    else match_lines name handle rest r.2

/-- The loop of `dmidecode_match_value` as a recursion over the lines it
visits: the handles appended, in order. -/
def value_lines (name : CStr) (value : Option CStr) : List CStr → Nat → List Nat
  | [], _ => []
  | line :: rest, ch =>
    let ln := strlen name
    let lnv := match value with
      | some v => strlen v
      | none => 0
    let r := sscanf_Handle line ch
    let q := line.dropWhile (· = '\t')
    if lnot r.1 > 0 ∧ strncmp q name ln = 0 ∧ charAt q ln = ':' ∧
        (value = none ∨
          strncmp ((q.drop (ln + 1)).dropWhile (· = ' ')) (value.getD []) lnv = 0) then
      r.2 :: value_lines name value rest r.2
    else value_lines name value rest r.2

/-- A handle list is well formed: `count` cells are in use and allocated. -/
def hl_wf (hl : Option dmi_handle_list) : Prop :=
  match hl with
  | none => True
  | some l => l.count = l.handles.length

/-- The two-record text of the specification. -/
def spec_text : CStr :=
  ("Handle 0x0001, DMI type 2\n\tManufacturer: Acme\n\tSerial Number: 12345\n" ++
    "Handle 0x0002, DMI type 3\n\tManufacturer: Acme\n").toList

/-- One record with two matching field lines. -/
def twice_text : CStr :=
  "Handle 0x0001, DMI type 2\n\tManufacturer: Acme\n\tManufacturer: Acme\n".toList

/-- The handle list pointer that stands for a sequence of handles: NULL for
the empty sequence, else a list whose count is the length. -/
def hl_of_list : List Nat → Option dmi_handle_list
  | [] => none
  | h :: hs => some ⟨(h :: hs).length, h :: hs⟩

/-- A handle list pointer is NULL or points to a list of at least one handle
whose count is the size of its array. -/
def hl_ok (hl : Option dmi_handle_list) : Prop :=
  match hl with
  | none => True
  | some l => l.count = l.handles.length ∧ 1 ≤ l.count

/-- A line begins with a tab character (a tab-indented line). -/
def tab_indented (l : CStr) : Bool := l.head? == some '\t'

/-- The two-record text of the specification without its field lines. -/
def spec_text_handle_lines : CStr :=
  "Handle 0x0001, DMI type 2\nHandle 0x0002, DMI type 3\n".toList

/-- A record whose only field line has an empty field name. -/
def colon_text : CStr := "Handle 0x0001, DMI type 2\n\t: x\n".toList

/-- A record whose field line is the unterminated final line of the text. -/
def unterminated_text : CStr := "Handle 0x0001, DMI type 2\n\tManufacturer: Acme".toList

/-- A record whose field line ends with two spaces. -/
def trailing_text : CStr := "Handle 0x0001, DMI type 2\n\tManufacturer: Acme  \n".toList

/-- A record whose field line has no leading tab. -/
def untabbed_text : CStr := "Handle 0x0001, DMI type 2\nManufacturer: Acme\n".toList

/-- A field line that precedes the first handle line. -/
def preamble_text : CStr := "\tManufacturer: Acme\nHandle 0x0001, DMI type 2\n".toList

/-- The C comparison `x > 0` as an `int`. -/
def gt0 (x : Int) : Int := if x > 0 then 1 else 0

/-- The loop of `dmidecode_match` with the line test parenthesised,
`!(sscanf(...) > 0)`, which holds when `sscanf` returns 0 or EOF. -/
def dmidecode_match_loop_paren (name : CStr) (handle : Option Nat) :
    Nat → CStr → Nat → Option CStr
  | 0, _, _ => none
  | fuel + 1, p, ch =>
    match strchr p '\n' with
    | none => none
    | some next_nl =>
      let ln := strlen name
      let line := strend p '\n'
      let r := sscanf_Handle line ch
      let q := line.dropWhile (· = '\t')
      if lnot (gt0 r.1) ≠ 0 ∧ (handle = none ∨ handle = some r.2) ∧
          strncmp q name ln = 0 ∧ charAt q ln = ':' then
        some ((q.drop (ln + 1)).dropWhile (· = ' '))
      else dmidecode_match_loop_paren name handle fuel next_nl.tail r.2

/-- `dmidecode_match` with the line test parenthesised. -/
def dmidecode_match_paren (env : Env) (name : Option CStr) (dmi_type handle : Option Nat) :
    Option CStr :=
  match name with
  | none => none
  | some name =>
    match dmidecode_read env dmi_type with
    | none => none
    | some full => dmidecode_match_loop_paren name handle (full.length + 1) full 0

/-- The loop of `dmidecode_match_value` with the line test parenthesised,
`!(sscanf(...) > 0)`. -/
def dmidecode_match_value_loop_paren (name : CStr) (value : Option CStr) :
    Nat → CStr → Option dmi_handle_list → Nat → Option dmi_handle_list
  | 0, _, hl, _ => hl
  | fuel + 1, p, hl, ch =>
    match strchr p '\n' with
    | none => hl
    | some next_nl =>
      let ln := strlen name
      let lnv := match value with
        | some v => strlen v
        | none => 0
      let line := strend p '\n'
      let r := sscanf_Handle line ch
      let q := line.dropWhile (· = '\t')
      let hl :=
        if lnot (gt0 r.1) ≠ 0 ∧ strncmp q name ln = 0 ∧ charAt q ln = ':' ∧
            (value = none ∨
              strncmp ((q.drop (ln + 1)).dropWhile (· = ' ')) (value.getD []) lnv = 0) then
          dmi_handle_list_add hl r.2
        else hl
      dmidecode_match_value_loop_paren name value fuel next_nl.tail hl r.2

/-- `dmidecode_match_value` with the line test parenthesised. -/
def dmidecode_match_value_paren (env : Env) (name value : Option CStr)
    (dmi_type : Option Nat) : Option dmi_handle_list :=
  match name with
  | none => none
  | some name =>
    match dmidecode_read env dmi_type with
    | none => none
    | some full => dmidecode_match_value_loop_paren name value (full.length + 1) full none 0

/-! ## Theorems -/

theorem strcasecmp_eq_zero_iff (a b : CStr) : strcasecmp a b = 0 ↔ eq_ignoring_case a b := by
  unfold eq_ignoring_case
  induction a generalizing b with
  | nil => cases b <;> simp [strcasecmp]
  | cons x a ih =>
    cases b with
    | nil => simp [strcasecmp]
    | cons y b =>
      simp only [strcasecmp, List.map_cons, List.cons.injEq]
      by_cases h : tolower x = tolower y
      · simp [h, ih]
      · simp only [h, if_false, false_and, iff_false]
        split <;> decide

theorem DMI_IGNORE_chain_hit (ms : List CStr) (s : CStr)
    (h : ∃ m ∈ ms, eq_ignoring_case m s) : DMI_IGNORE_chain ms s = (1, none) := by
  induction ms with
  | nil => simp at h
  | cons m ms ih =>
    simp only [DMI_IGNORE_chain]
    by_cases hm : strcasecmp m s = 0
    · simp [hm]
    · simp only [hm, if_false]
      apply ih
      obtain ⟨m1, hm1, he⟩ := h
      rcases List.mem_cons.1 hm1 with rfl | hm1
      · exact absurd ((strcasecmp_eq_zero_iff _ _).2 he) hm
      · exact ⟨m1, hm1, he⟩

theorem DMI_IGNORE_chain_miss (ms : List CStr) (s : CStr)
    (h : ¬ ∃ m ∈ ms, eq_ignoring_case m s) : DMI_IGNORE_chain ms s = (0, some s) := by
  induction ms with
  | nil => simp [DMI_IGNORE_chain]
  | cons m ms ih =>
    simp only [DMI_IGNORE_chain]
    have hm : ¬ strcasecmp m s = 0 := fun h0 =>
      h ⟨m, List.mem_cons_self _ _, (strcasecmp_eq_zero_iff _ _).1 h0⟩
    simp only [hm, if_false]
    exact ih fun ⟨m1, hm1, he⟩ => h ⟨m1, List.mem_cons_of_mem _ hm1, he⟩

theorem ignore_placeholder_hit (s : CStr) (h : is_placeholder s) :
    ignore_placeholder_strings (some (some s)) = (1, none) :=
  DMI_IGNORE_chain_hit _ _ h

theorem ignore_placeholder_miss (s : CStr) (h : ¬ is_placeholder s) :
    ignore_placeholder_strings (some (some s)) = (0, some s) :=
  DMI_IGNORE_chain_miss _ _ h

/-- C1: `dmi_get_str` returns absent exactly when the value of
`dmi_get_str_abs` is absent, is empty or is a deny-list placeholder ignoring
letter case, and otherwise returns that value unchanged; so every string it
returns is non-empty and not a placeholder. -/
theorem dmi_get_str_filter (env : Env) (id_str : CStr) :
    (dmi_get_str env id_str = none ↔
      (dmi_get_str_abs env id_str = none ∨ dmi_get_str_abs env id_str = some [] ∨
        ∃ s, dmi_get_str_abs env id_str = some s ∧ is_placeholder s)) ∧
    (∀ s, dmi_get_str env id_str = some s ↔
      (dmi_get_str_abs env id_str = some s ∧ s ≠ [] ∧ ¬ is_placeholder s)) := by
  unfold dmi_get_str
  cases hraw : dmi_get_str_abs env id_str with
  | none => simp [ignore_placeholder_strings]
  | some r =>
    cases r with
    | nil => simp [ignore_placeholder_strings]
    | cons c r =>
      by_cases hp : is_placeholder (c :: r)
      · simp only [ignore_placeholder_hit _ hp]
        refine ⟨by simpa using hp, fun s => ?_⟩
        constructor
        · intro h; cases h
        · rintro ⟨h, -, hn⟩
          cases h; exact absurd hp hn
      · simp only [ignore_placeholder_miss _ hp]
        refine ⟨by simpa using hp, fun s => ?_⟩
        constructor
        · intro h
          cases h
          exact ⟨rfl, by simp, hp⟩
        · rintro ⟨h, -, -⟩
          exact h

/-- C2: `ignore_placeholder_strings` returns 1 and replaces the string by
absent exactly when the string equals one of the nine deny-list strings as
a whole, ignoring letter case; otherwise it returns 0 and leaves the string
unchanged.  `to be filled by o.e.m.` and `To Be Filled By O.E.M.` are
filtered, `To be filled by O.E.M. extra` is not. -/
theorem ignore_placeholder_strings_exact (s : CStr) :
    DMI_IGNORE_list.length = 9 ∧
    (ignore_placeholder_strings (some (some s)) = (1, none) ↔ is_placeholder s) ∧
    (ignore_placeholder_strings (some (some s)) = (0, some s) ↔ ¬ is_placeholder s) ∧
    ignore_placeholder_strings (some (some "to be filled by o.e.m.".toList)) = (1, none) ∧
    ignore_placeholder_strings (some (some "To Be Filled By O.E.M.".toList)) = (1, none) ∧
    ignore_placeholder_strings (some (some "To be filled by O.E.M. extra".toList)) =
      (0, some "To be filled by O.E.M. extra".toList) := by
  refine ⟨by decide, ?_, ?_, by decide, by decide, by decide⟩
  · by_cases hp : is_placeholder s
    · simp [ignore_placeholder_hit _ hp, hp]
    · simp [ignore_placeholder_miss _ hp, hp]
  · by_cases hp : is_placeholder s
    · simp [ignore_placeholder_hit _ hp, hp]
    · simp [ignore_placeholder_miss _ hp, hp]

/-- C3: `dmi_str_status` returns one of -1, 0, 1: 0 exactly when
`dmi_get_str_abs` resolves no value, -1 exactly when the value resolved is a
deny-list placeholder, and 1 exactly when a value is resolved that is not a
placeholder. -/
theorem dmi_str_status_tristate (env : Env) (id_str : CStr) :
    (dmi_str_status env id_str = -1 ∨ dmi_str_status env id_str = 0 ∨
      dmi_str_status env id_str = 1) ∧
    (dmi_str_status env id_str = 0 ↔ dmi_get_str_abs env id_str = none) ∧
    (dmi_str_status env id_str = -1 ↔
      ∃ s, dmi_get_str_abs env id_str = some s ∧ is_placeholder s) ∧
    (dmi_str_status env id_str = 1 ↔
      ∃ s, dmi_get_str_abs env id_str = some s ∧ ¬ is_placeholder s) := by
  unfold dmi_str_status
  cases hraw : dmi_get_str_abs env id_str with
  | none => simp [ignore_placeholder_strings]
  | some r =>
    by_cases hp : is_placeholder r
    · simp [ignore_placeholder_hit _ hp, hp]
    · simp [ignore_placeholder_miss _ hp, hp]

/-- C4: at an empty sysfs file (contents: one newline) `dmi_get_str` returns
absent, yet `dmi_str_status` returns 1: the status function lacks the
empty-string test of `dmi_get_str`. -/
theorem dmi_str_status_empty_value :
    dmi_get_str_abs (env_sysfs "\n".toList) "bios-vendor".toList = some [] ∧
    dmi_get_str (env_sysfs "\n".toList) "bios-vendor".toList = none ∧
    dmi_str_status (env_sysfs "\n".toList) "bios-vendor".toList = 1 := by
  decide

theorem strcmp_eq_zero_iff (a b : CStr) : strcmp a b = 0 ↔ a = b := by
  induction a generalizing b with
  | nil => cases b <;> simp [strcmp]
  | cons x a ih =>
    cases b with
    | nil => simp [strcmp]
    | cons y b =>
      simp only [strcmp, List.cons.injEq]
      by_cases h : x = y
      · simp [h, ih]
      · simp only [h, if_false, false_and, iff_false]
        split <;> decide

theorem strend_eq_first_line (c : CStr) : strend c '\n' = first_line c := by
  unfold first_line
  induction c with
  | nil => rfl
  | cons a c ih =>
    by_cases h : a = '\n'
    · simp [strend, h]
    · simp [strend, h, ih]

theorem dmi_sysfs_root_mem (env : Env) (root : CStr) (h : dmi_sysfs_root env = some root) :
    root ∈ candidates := by
  unfold dmi_sysfs_root candidates at *
  simp only [dmi_sysfs_root_loop] at h
  split at h
  · cases h; simp
  · split at h
    · cases h; simp
    · cases h

theorem sysfs_path_fits (root : CStr) (e : CStr × CStr) (hr : root ∈ candidates)
    (he : e ∈ tab_dmi_sysfs) : snprintf PATH_MAX (root ++ '/' :: e.2) = root ++ '/' :: e.2 := by
  have hall : ∀ r ∈ candidates, ∀ x ∈ tab_dmi_sysfs,
      (r ++ '/' :: x.2).length ≤ PATH_MAX - 1 := by decide
  exact List.take_of_length_le (hall root hr e he)

theorem tab_dmi_sysfs_nodup : (tab_dmi_sysfs.map Prod.fst).Nodup := by decide

theorem sysfs_loop_absent (env : Env) (root id_str : CStr) (tab : List (CStr × CStr))
    (h : ∀ path, (id_str, path) ∉ tab) : sysfs_loop env root id_str tab = none := by
  induction tab with
  | nil => rfl
  | cons e tab ih =>
    obtain ⟨k, p⟩ := e
    have hk : ¬ strcmp id_str k = 0 := by
      rw [strcmp_eq_zero_iff]
      rintro rfl
      exact h p (List.mem_cons_self _ _)
    simp only [sysfs_loop, hk, if_false]
    exact ih fun path hp => h path (List.mem_cons_of_mem _ hp)

theorem sysfs_loop_present (env : Env) (root id_str path : CStr) (tab : List (CStr × CStr))
    (hnd : (tab.map Prod.fst).Nodup) (h : (id_str, path) ∈ tab) :
    sysfs_loop env root id_str tab =
      env.g_file_get_contents (snprintf PATH_MAX (root ++ '/' :: path)) := by
  induction tab with
  | nil => simp at h
  | cons e tab ih =>
    obtain ⟨k, p⟩ := e
    simp only [List.map_cons, List.nodup_cons] at hnd
    by_cases hk : id_str = k
    · subst hk
      have hp : p = path := by
        rcases List.mem_cons.1 h with h1 | h1
        · cases h1; rfl
        · exact absurd (List.mem_map_of_mem Prod.fst h1) hnd.1
      subst hp
      have h0 : strcmp id_str id_str = 0 := (strcmp_eq_zero_iff _ _).2 rfl
      simp only [sysfs_loop, h0, if_true]
      cases hread : env.g_file_get_contents (snprintf PATH_MAX (root ++ '/' :: p)) with
      | some c => rfl
      | none =>
        exact sysfs_loop_absent env root id_str tab fun q hq =>
          hnd.1 (List.mem_map_of_mem Prod.fst hq)
    · have h0 : ¬ strcmp id_str k = 0 := by rwa [strcmp_eq_zero_iff]
      simp only [sysfs_loop, h0, if_false]
      apply ih hnd.2
      rcases List.mem_cons.1 h with h1 | h1
      · cases h1; exact absurd rfl hk
      · exact h1

theorem dmi_get_str_raw_sysfs (env : Env) (id_str root path c : CStr)
    (hroot : dmi_sysfs_root env = some root) (htab : (id_str, path) ∈ tab_dmi_sysfs)
    (hread : env.g_file_get_contents (root ++ '/' :: path) = some c) :
    dmi_get_str_raw env id_str = some c := by
  have hfit := sysfs_path_fits root (id_str, path) (dmi_sysfs_root_mem env root hroot) htab
  simp only at hfit
  unfold dmi_get_str_raw
  simp only [hroot, sysfs_loop_present env root id_str path _ tab_dmi_sysfs_nodup htab, hfit,
    hread]

theorem dmi_get_str_raw_fallback (env : Env) (id_str : CStr)
    (h : dmi_sysfs_root env = none ∨ (∀ path, (id_str, path) ∉ tab_dmi_sysfs) ∨
      (∀ root path, dmi_sysfs_root env = some root → (id_str, path) ∈ tab_dmi_sysfs →
        env.g_file_get_contents (root ++ '/' :: path) = none)) :
    dmi_get_str_raw env id_str =
      match env.g_spawn_command_line_sync (dmidecode_s_command id_str) with
      | some (out, _, i) => if i = 0 then some out else none
      | none => none := by
  have hnone : (match dmi_sysfs_root env with
      | some dmi_root => sysfs_loop env dmi_root id_str tab_dmi_sysfs
      | none => none) = none := by
    cases hroot : dmi_sysfs_root env with
    | none => rfl
    | some root =>
      simp only
      by_cases hin : ∃ path, (id_str, path) ∈ tab_dmi_sysfs
      · obtain ⟨path, hpath⟩ := hin
        rw [sysfs_loop_present env root id_str path _ tab_dmi_sysfs_nodup hpath]
        have hfit := sysfs_path_fits root (id_str, path) (dmi_sysfs_root_mem env root hroot) hpath
        simp only at hfit
        rw [hfit]
        rcases h with h | h | h
        · rw [hroot] at h; cases h
        · exact absurd hpath (h path)
        · exact h root path hroot hpath
      · exact sysfs_loop_absent env root id_str _ fun path hp => hin ⟨path, hp⟩
  unfold dmi_get_str_raw
  simp only [hnone]

/-- C5: `dmi_get_str_abs` picks its source in a fixed order.  When a sysfs
root was located, the attribute has a mapping-table entry and the mapped file
is read, the result is the normalized file contents, whatever the command
would print.  Otherwise (no root, no table entry, or the read failed) the
result is the normalized standard output of the command line
`dmidecode -s <attribute>` when the child was spawned and exited with status
0, and absent on spawn failure or non-zero exit.  The command line is the
one `snprintf` stores, which is `dmidecode -s <attribute>` in full when it
fits the buffer of `PATH_MAX` characters. -/
theorem dmi_get_str_abs_source_order (env : Env) (id_str : CStr) :
    (∀ root path c, dmi_sysfs_root env = some root → (id_str, path) ∈ tab_dmi_sysfs →
      env.g_file_get_contents (root ++ '/' :: path) = some c →
      dmi_get_str_abs env id_str = some (g_strstrip (strend c '\n'))) ∧
    ((dmi_sysfs_root env = none ∨ (∀ path, (id_str, path) ∉ tab_dmi_sysfs) ∨
      (∀ root path, dmi_sysfs_root env = some root → (id_str, path) ∈ tab_dmi_sysfs →
        env.g_file_get_contents (root ++ '/' :: path) = none)) →
      dmi_get_str_abs env id_str =
        match env.g_spawn_command_line_sync (dmidecode_s_command id_str) with
        | some (out, _, i) => if i = 0 then some (g_strstrip (strend out '\n')) else none
        | none => none) ∧
    (id_str.length + 13 < PATH_MAX →
      dmidecode_s_command id_str = "dmidecode -s ".toList ++ id_str) := by
  refine ⟨?_, ?_, ?_⟩
  · intro root path c hroot htab hread
    unfold dmi_get_str_abs
    rw [dmi_get_str_raw_sysfs env id_str root path c hroot htab hread]
    rfl
  · intro h
    unfold dmi_get_str_abs
    rw [dmi_get_str_raw_fallback env id_str h]
    cases env.g_spawn_command_line_sync (dmidecode_s_command id_str) with
    | none => rfl
    | some r =>
      obtain ⟨out, err, i⟩ := r
      by_cases hi : i = 0
      · simp [hi, dmi_str_done]
      · simp [hi, dmi_str_done]
  · intro hlen
    unfold dmidecode_s_command snprintf
    apply List.take_of_length_le
    simp only [List.length_append, PATH_MAX] at *
    have : "dmidecode -s ".toList.length = 13 := by decide
    omega

/-- Witness of C5: in an environment whose primary sysfs root exists and
whose files hold `Acme`, the attribute `bios-vendor` resolves to `Acme`;
without sysfs root it resolves to the output of `dmidecode -s bios-vendor`. -/
theorem dmi_get_str_abs_source_order_witness :
    dmi_get_str_abs (env_sysfs "Acme\n".toList) "bios-vendor".toList = some "Acme".toList ∧
    dmi_get_str_abs (env_dmidecode "Acme Inc\n".toList) "bios-vendor".toList =
      some "Acme Inc".toList ∧
    dmidecode_s_command "bios-vendor".toList = "dmidecode -s bios-vendor".toList :=
  ⟨(dmi_get_str_abs_source_order (env_sysfs "Acme\n".toList) "bios-vendor".toList).1
      "/sys/devices/virtual/dmi".toList "id/bios_vendor".toList "Acme\n".toList
      (by decide) (by decide) (by decide),
    ((dmi_get_str_abs_source_order (env_dmidecode "Acme Inc\n".toList)
      "bios-vendor".toList).2.1 (Or.inl (by decide))).trans (by decide),
    (dmi_get_str_abs_source_order (env_sysfs "Acme\n".toList) "bios-vendor".toList).2.2
      (by decide)⟩

theorem first_line_of_no_inner_newline (l : CStr) (h : '\n' ∉ l) :
    first_line l = l ∧ first_line (l ++ ['\n']) = l := by
  unfold first_line
  induction l with
  | nil => simp
  | cons a l ih =>
    have ha : a ≠ '\n' := fun e => h (by simp [e])
    have hl : '\n' ∉ l := fun e => h (List.mem_cons_of_mem _ e)
    have hd : decide (a ≠ '\n') = true := by simpa using ha
    obtain ⟨h1, h2⟩ := ih hl
    constructor
    · rw [List.takeWhile_cons, if_pos hd, h1]
    · rw [List.cons_append, List.takeWhile_cons, if_pos hd, h2]

theorem strip_trailing_newline_of_no_inner_newline (l : CStr) (h : '\n' ∉ l) :
    strip_trailing_newline l = l ∧ strip_trailing_newline (l ++ ['\n']) = l := by
  unfold strip_trailing_newline
  constructor
  · have : l.getLast? ≠ some '\n' := fun e => h (List.mem_of_mem_getLast? e)
    simp [this]
  · simp

/-- C6, counterexample: the file content `Acme`, newline, `Inc`, newline read
for `bios-vendor` has the non-empty, non-placeholder normal form `Acme`,
newline, `Inc` (one trailing newline removed, white space trimmed), but
`dmi_get_str` returns `Acme`: the content is cut at its first newline. -/
theorem dmi_get_str_multiline_counterexample :
    ¬ (∀ (env : Env) (id_str root path c : CStr),
      dmi_sysfs_root env = some root → (id_str, path) ∈ tab_dmi_sysfs →
      env.g_file_get_contents (root ++ '/' :: path) = some c →
      spec_normalize c ≠ [] → ¬ is_placeholder (spec_normalize c) →
      dmi_get_str env id_str = some (spec_normalize c)) := by
  intro h
  have hnp : ¬ is_placeholder (spec_normalize "Acme\nInc\n".toList) := by
    intro hp
    have h1 := ignore_placeholder_hit _ hp
    revert h1
    decide
  have h2 := h (env_sysfs "Acme\nInc\n".toList) "bios-vendor".toList
    "/sys/devices/virtual/dmi".toList "id/bios_vendor".toList "Acme\nInc\n".toList
    (by decide) (by decide) (by decide) (by decide) hnp
  revert h2
  decide

/-- C6, amended: for every attribute of the mapping table and every file
content `c`, when a sysfs root is located and the mapped file is read,
and the part of `c` before its first newline, trimmed of surrounding white
space, is non-empty and not a placeholder, `dmi_get_str` returns exactly that
value; it is `c` with a single trailing newline removed and trimmed whenever
`c` has no newline before its last character. -/
theorem dmi_get_str_sysfs_first_line (env : Env) (id_str root path c : CStr)
    (hroot : dmi_sysfs_root env = some root) (htab : (id_str, path) ∈ tab_dmi_sysfs)
    (hread : env.g_file_get_contents (root ++ '/' :: path) = some c)
    (hne : g_strstrip (first_line c) ≠ [])
    (hnp : ¬ is_placeholder (g_strstrip (first_line c))) :
    dmi_get_str env id_str = some (g_strstrip (first_line c)) ∧
    ∀ l, '\n' ∉ l → (c = l ∨ c = l ++ ['\n']) →
      dmi_get_str env id_str = some (spec_normalize c) := by
  have habs : dmi_get_str_abs env id_str = some (g_strstrip (first_line c)) := by
    unfold dmi_get_str_abs
    rw [dmi_get_str_raw_sysfs env id_str root path c hroot htab hread]
    simp only [dmi_str_done, strend_eq_first_line]
  have hget : dmi_get_str env id_str = some (g_strstrip (first_line c)) := by
    unfold dmi_get_str
    rw [habs]
    cases hv : g_strstrip (first_line c) with
    | nil => exact absurd hv hne
    | cons a v =>
      simp only
      rw [hv] at hnp
      rw [ignore_placeholder_miss _ hnp]
  refine ⟨hget, fun l hl hc => ?_⟩
  rw [hget]
  unfold spec_normalize
  rcases hc with hc | hc
  · rw [hc, (first_line_of_no_inner_newline l hl).1,
      (strip_trailing_newline_of_no_inner_newline l hl).1]
  · rw [hc, (first_line_of_no_inner_newline l hl).2,
      (strip_trailing_newline_of_no_inner_newline l hl).2]

/-- Witness of C6: the file content `Acme` followed by a newline, read for
`bios-vendor` under the primary sysfs root. -/
theorem dmi_get_str_sysfs_first_line_witness :
    dmi_get_str (env_sysfs " Acme \n".toList) "bios-vendor".toList = some "Acme".toList ∧
    dmi_get_str (env_sysfs " Acme \n".toList) "bios-vendor".toList =
      some (spec_normalize " Acme \n".toList) :=
  have hnp : ¬ is_placeholder (g_strstrip (first_line " Acme \n".toList)) := fun hp =>
    absurd (ignore_placeholder_hit _ hp) (by decide)
  have h := dmi_get_str_sysfs_first_line (env_sysfs " Acme \n".toList) "bios-vendor".toList
    "/sys/devices/virtual/dmi".toList "id/bios_vendor".toList " Acme \n".toList
    (by decide) (by decide) (by decide) (by decide) hnp
  ⟨h.1, h.2 " Acme ".toList (by decide) (Or.inr (by decide))⟩

/-! ### The library models -/

theorem name_colon_iff (name q : CStr) :
    (strncmp q name name.length = 0 ∧ charAt q name.length = ':') ↔
      (name ++ [':']).isPrefixOf q = true := by
  induction name generalizing q with
  | nil =>
    cases q with
    | nil =>
      simp only [List.length_nil, strncmp, charAt, List.nil_append, List.isPrefixOf, true_and]
      decide
    | cons a s =>
      simp only [List.length_nil, strncmp, charAt, List.nil_append, List.isPrefixOf, true_and,
        Bool.and_true, beq_iff_eq]
      exact eq_comm
  | cons b t ih =>
    cases q with
    | nil =>
      simp only [List.length_cons, strncmp, List.cons_append, List.isPrefixOf]
      simp
    | cons a s =>
      by_cases hab : a = b
      · subst hab
        simp only [List.length_cons, strncmp, if_true, charAt, List.cons_append,
          List.isPrefixOf, beq_self_eq_true, Bool.true_and]
        exact ih s
      · have hba : ¬ b = a := fun e => hab e.symm
        simp only [List.length_cons, strncmp, hab, if_false, List.cons_append, List.isPrefixOf,
          Bool.and_eq_true, beq_iff_eq, hba, false_and, iff_false, not_and]
        intro h
        split at h <;> simp at h

theorem strncmp_eq_zero_iff (p w : CStr) :
    strncmp p w w.length = 0 ↔ w.isPrefixOf p = true := by
  induction w generalizing p with
  | nil => simp [strncmp]
  | cons b t ih =>
    cases p with
    | nil => simp [strncmp, List.isPrefixOf]
    | cons a s =>
      by_cases hab : a = b
      · subst hab
        simp [strncmp, List.isPrefixOf, ih s]
      · have hba : ¬ b = a := fun e => hab e.symm
        simp only [List.length_cons, strncmp, hab, if_false, List.isPrefixOf,
          beq_iff_eq, hba, Bool.and_eq_true, false_and, iff_false]
        split <;> simp

theorem match_chars_eof (f p : CStr) (h : match_chars f p = .error (-1)) :
    ∀ c ∈ p, c ∈ f := by
  induction f generalizing p with
  | nil => simp [match_chars] at h
  | cons a f ih =>
    cases p with
    | nil => simp
    | cons b p =>
      simp only [match_chars] at h
      split at h
      · rename_i hb
        intro c hc
        rcases List.mem_cons.1 hc with rfl | hc
        · simp [hb]
        · exact List.mem_cons_of_mem _ (ih p h c hc)
      · simp at h

theorem match_chars_ok (f p r : CStr) (h : match_chars f p = .ok r) : p = f ++ r := by
  induction f generalizing p with
  | nil => simp only [match_chars, Except.ok.injEq] at h; simp [h]
  | cons a f ih =>
    cases p with
    | nil => simp [match_chars] at h
    | cons b p =>
      simp only [match_chars] at h
      split at h
      · rename_i hb
        simp [hb, ih p h]
      · simp at h

theorem match_chars_error (f p : CStr) (e : Int) (h : match_chars f p = .error e) :
    e = -1 ∨ e = 0 := by
  induction f generalizing p with
  | nil => simp [match_chars] at h
  | cons a f ih =>
    cases p with
    | nil => simp only [match_chars, Except.error.injEq] at h; exact Or.inl h.symm
    | cons b p =>
      simp only [match_chars] at h
      split at h
      · exact ih p h
      · simp only [Except.error.injEq] at h; exact Or.inr h.symm

theorem conv_X_shape (p : CStr) :
    (∃ v, conv_X p = (1, some v)) ∨ conv_X p = (0, none) ∨
      (conv_X p = (-1, none) ∧ ∀ c ∈ p, isspace c = true) := by
  unfold conv_X
  split
  · rename_i hnil
    refine Or.inr (Or.inr ⟨rfl, fun c hc => ?_⟩)
    have := List.takeWhile_append_dropWhile isspace p
    rw [hnil, List.append_nil] at this
    rw [← this] at hc
    exact List.mem_takeWhile_imp hc
  · dsimp only
    split
    · exact Or.inr (Or.inl rfl)
    · exact Or.inl ⟨_, rfl⟩

theorem mem_of_mem_dropWhile_isspace (c : Char) (p : CStr)
    (h : c ∈ p.dropWhile isspace) : c ∈ p := by
  have := List.takeWhile_append_dropWhile isspace p
  rw [← this]
  exact List.mem_append_right _ h

theorem mem_split_isspace (c : Char) (p : CStr) (h : c ∈ p) :
    isspace c = true ∨ c ∈ p.dropWhile isspace := by
  have := List.takeWhile_append_dropWhile isspace p
  rw [← this] at h
  rcases List.mem_append.1 h with h | h
  · exact Or.inl (List.mem_takeWhile_imp h)
  · exact Or.inr h

/-- The scan returns 1 with a handle, or 0 or EOF without; a line on which
it returns EOF has no colon. -/
theorem scan_Handle_shape (l : CStr) :
    (∃ v, scan_Handle l = (1, some v)) ∨ scan_Handle l = (0, none) ∨
      (scan_Handle l = (-1, none) ∧ ':' ∉ l) := by
  unfold scan_Handle
  cases h1 : match_chars "Handle".toList l with
  | error e =>
    rcases match_chars_error _ _ _ h1 with rfl | rfl
    · refine Or.inr (Or.inr ⟨rfl, fun hc => ?_⟩)
      have := match_chars_eof _ _ h1 _ hc
      revert this
      decide
    · exact Or.inr (Or.inl rfl)
  | ok p1 =>
    have hl := match_chars_ok _ _ _ h1
    simp only
    cases h2 : match_chars "0x".toList (p1.dropWhile isspace) with
    | error e =>
      rcases match_chars_error _ _ _ h2 with rfl | rfl
      · refine Or.inr (Or.inr ⟨rfl, fun hc => ?_⟩)
        rw [hl] at hc
        rcases List.mem_append.1 hc with hc | hc
        · revert hc; decide
        · rcases mem_split_isspace _ _ hc with hs | hd
          · revert hs; decide
          · have := match_chars_eof _ _ h2 _ hd
            revert this
            decide
      · exact Or.inr (Or.inl rfl)
    | ok p2 =>
      have hl2 := match_chars_ok _ _ _ h2
      simp only
      rcases conv_X_shape p2 with h | h | ⟨h, hsp⟩
      · exact Or.inl h
      · exact Or.inr (Or.inl h)
      · refine Or.inr (Or.inr ⟨h, fun hc => ?_⟩)
        rw [hl] at hc
        rcases List.mem_append.1 hc with hc | hc
        · revert hc; decide
        · rcases mem_split_isspace _ _ hc with hs | hd
          · revert hs; decide
          · rw [hl2] at hd
            rcases List.mem_append.1 hd with hd | hd
            · revert hd; decide
            · have := hsp _ hd
              revert this
              decide

theorem sscanf_Handle_of_handle (l : CStr) (ch v : Nat) (h : handle_of l = some v) :
    sscanf_Handle l ch = (1, v) := by
  unfold handle_of at h
  unfold sscanf_Handle
  rcases scan_Handle_shape l with ⟨w, hw⟩ | hw | ⟨hw, -⟩ <;> rw [hw] at h ⊢ <;> simp at h ⊢
  exact h

theorem sscanf_Handle_of_no_handle (l : CStr) (ch : Nat) (h : handle_of l = none) :
    sscanf_Handle l ch = (0, ch) ∨ (sscanf_Handle l ch = (-1, ch) ∧ ':' ∉ l) := by
  unfold handle_of at h
  unfold sscanf_Handle
  rcases scan_Handle_shape l with ⟨w, hw⟩ | hw | ⟨hw, hc⟩ <;> rw [hw] at h ⊢ <;> simp at h ⊢
  exact hc

theorem colon_mem_of_name_colon (name l : CStr)
    (h : (name ++ [':']).isPrefixOf (l.dropWhile (· = '\t')) = true) : ':' ∈ l := by
  rw [List.isPrefixOf_iff_prefix] at h
  obtain ⟨t, ht⟩ := h
  have h1 : ':' ∈ l.dropWhile (· = '\t') := by
    rw [← ht]; simp
  have := List.takeWhile_append_dropWhile (· = '\t') l
  rw [← this]
  exact List.mem_append_right _ h1

/-- The test the two matching loops make on a line is the test of
`field_value`. -/
theorem line_test_iff (name l : CStr) (ch : Nat) :
    (lnot (sscanf_Handle l ch).1 > 0 ∧ strncmp (l.dropWhile (· = '\t')) name (strlen name) = 0 ∧
      charAt (l.dropWhile (· = '\t')) (strlen name) = ':') ↔
    (handle_of l = none ∧ (name ++ [':']).isPrefixOf (l.dropWhile (· = '\t')) = true) := by
  unfold strlen
  rw [name_colon_iff]
  cases hh : handle_of l with
  | some v =>
    rw [sscanf_Handle_of_handle l ch v hh]
    simp [lnot]
  | none =>
    rcases sscanf_Handle_of_no_handle l ch hh with h0 | ⟨h1, hc⟩
    · rw [h0]; simp [lnot]
    · rw [h1]
      have hneg : ¬ lnot (-1) > 0 := by decide
      simp only [true_and]
      constructor
      · rintro ⟨h, -⟩
        exact absurd h hneg
      · intro h
        exact absurd (colon_mem_of_name_colon name l h) hc

/-! ### Lines -/

theorem terminated_lines_of_strchr_none (p : CStr) (h : strchr p '\n' = none) :
    terminated_lines p = [] := by
  induction p with
  | nil => rfl
  | cons a s ih =>
    simp only [strchr] at h
    split at h
    · cases h
    · rename_i ha
      simp only [terminated_lines, ha, if_false, ih h]

theorem terminated_lines_of_strchr_some (p nx : CStr) (h : strchr p '\n' = some nx) :
    terminated_lines p = strend p '\n' :: terminated_lines nx.tail ∧
      nx.tail.length < p.length := by
  induction p with
  | nil => simp [strchr] at h
  | cons a s ih =>
    simp only [strchr] at h
    split at h
    · rename_i ha
      cases h
      simp [terminated_lines, strend, ha]
    · rename_i ha
      obtain ⟨h1, h2⟩ := ih h
      simp only [terminated_lines, ha, if_false, h1, strend, List.length_cons]
      exact ⟨trivial, Nat.lt_succ_of_lt h2⟩

theorem text_lines_eq_terminated_append (p : CStr) :
    ∃ t, text_lines p = terminated_lines p ++ t := by
  induction p with
  | nil => exact ⟨[], rfl⟩
  | cons a s ih =>
    obtain ⟨t, ht⟩ := ih
    by_cases ha : a = '\n'
    · exact ⟨t, by simp [text_lines, terminated_lines, ha, ht]⟩
    · cases hs : terminated_lines s with
      | nil =>
        exact ⟨text_lines (a :: s), by
          simp only [terminated_lines, ha, if_false, hs, List.nil_append]⟩
      | cons l ls =>
        refine ⟨t, ?_⟩
        rw [hs] at ht
        simp only [text_lines, terminated_lines, ha, if_false, hs, ht, List.cons_append]

theorem terminated_lines_ne_nil (p : CStr) (h : '\n' ∈ p) : terminated_lines p ≠ [] := by
  induction p with
  | nil => simp at h
  | cons a s ih =>
    by_cases ha : a = '\n'
    · simp [terminated_lines, ha]
    · have hs : '\n' ∈ s := by
        rcases List.mem_cons.1 h with h | h
        · exact absurd h.symm ha
        · exact h
      have := ih hs
      simp only [terminated_lines, ha, if_false]
      cases hl : terminated_lines s with
      | nil => exact absurd hl this
      | cons l ls => simp

theorem text_lines_of_nl_terminated (p : CStr) (h : nl_terminated p) :
    text_lines p = terminated_lines p := by
  induction p with
  | nil => rfl
  | cons a s ih =>
    by_cases ha : a = '\n'
    · have hs : nl_terminated s := by
        cases s with
        | nil => exact Or.inl rfl
        | cons b s =>
          rcases h with h | h
          · cases h
          · exact Or.inr (by simpa [List.getLast?_cons_cons] using h)
      simp [text_lines, terminated_lines, ha, ih hs]
    · cases s with
      | nil =>
        rcases h with h | h
        · cases h
        · simp only [List.getLast?_singleton, Option.some.injEq] at h
          exact absurd h ha
      | cons b s =>
        have hl : (b :: s).getLast? = some '\n' := by
          rcases h with h | h
          · cases h
          · simpa [List.getLast?_cons_cons] using h
        have hs := ih (Or.inr hl)
        have hne := terminated_lines_ne_nil (b :: s) (List.mem_of_mem_getLast? hl)
        simp only [text_lines, terminated_lines, ha, if_false] at hs ⊢
        rw [hs]
        revert hne
        simp only [terminated_lines]
        cases terminated_lines_aux : (if b = '\n' then [] :: terminated_lines s
          else match terminated_lines s with
            | [] => []
            | l :: ls => (b :: l) :: ls) with
        | nil => intro hne; exact absurd rfl hne
        | cons l ls => intro _; rfl

/-! ### The loops as recursions over lines -/

theorem dmidecode_match_loop_eq (name : CStr) (handle : Option Nat) (fuel : Nat) (p : CStr)
    (ch : Nat) (h : p.length < fuel) :
    dmidecode_match_loop name handle fuel p ch =
      match_lines name handle (terminated_lines p) ch := by
  induction fuel generalizing p ch with
  | zero => omega
  | succ fuel ih =>
    simp only [dmidecode_match_loop]
    cases hs : strchr p '\n' with
    | none => simp only [terminated_lines_of_strchr_none p hs, match_lines]
    | some nx =>
      obtain ⟨h1, h2⟩ := terminated_lines_of_strchr_some p nx hs
      simp only [h1, match_lines]
      rw [ih nx.tail _ (by omega)]

theorem dmi_handle_list_add_spec (hl : Option dmi_handle_list) (v : Nat) (h : hl_wf hl) :
    hl_wf (dmi_handle_list_add hl v) ∧
      hl_handles (dmi_handle_list_add hl v) = hl_handles hl ++ [v] := by
  cases hl with
  | none => simp [dmi_handle_list_add, hl_wf, hl_handles]
  | some l =>
    obtain ⟨count, handles⟩ := l
    simp only [hl_wf] at h
    subst h
    simp only [dmi_handle_list_add, hl_wf, hl_handles, realloc, Nat.add_sub_cancel,
      List.length_set, List.length_append, List.length_take, List.length_replicate]
    refine ⟨by omega, ?_⟩
    have h1 : List.take (handles.length + 1) handles = handles :=
      List.take_of_length_le (by omega)
    have h2 : handles.length + 1 - handles.length = 1 := by omega
    rw [h1, h2, List.take_of_length_le (by simp), List.take_of_length_le (le_refl _)]
    simp [List.set_append]

theorem dmidecode_match_value_loop_eq (name : CStr) (value : Option CStr) (fuel : Nat)
    (p : CStr) (hl : Option dmi_handle_list) (ch : Nat) (hwf : hl_wf hl)
    (h : p.length < fuel) :
    hl_handles (dmidecode_match_value_loop name value fuel p hl ch) =
      hl_handles hl ++ value_lines name value (terminated_lines p) ch := by
  induction fuel generalizing p hl ch with
  | zero => omega
  | succ fuel ih =>
    simp only [dmidecode_match_value_loop]
    cases hs : strchr p '\n' with
    | none => simp only [terminated_lines_of_strchr_none p hs, value_lines, List.append_nil]
    | some nx =>
      obtain ⟨h1, h2⟩ := terminated_lines_of_strchr_some p nx hs
      simp only [h1, value_lines]
      split
      · rename_i hc
        obtain ⟨hw, he⟩ := dmi_handle_list_add_spec hl (sscanf_Handle (strend p '\n') ch).2 hwf
        rw [ih nx.tail _ _ hw (by omega), he]
        simp
      · rw [ih nx.tail _ _ hwf (by omega)]

/-! ### The field extractor -/

theorem match_lines_step_handle (name : CStr) (handle : Option Nat) (l : CStr)
    (rest : List CStr) (ch v : Nat) (h : handle_of l = some v) :
    match_lines name handle (l :: rest) ch = match_lines name handle rest v := by
  have hno : ¬ (handle_of l = none ∧
      (name ++ [':']).isPrefixOf (l.dropWhile (· = '\t')) = true) := by
    rw [h]; simp
  have hc := (not_congr (line_test_iff name l ch)).2 hno
  have hr : (sscanf_Handle l ch).2 = v := by rw [sscanf_Handle_of_handle l ch v h]
  simp only [match_lines]
  rw [if_neg (fun hx => hc ⟨hx.1, hx.2.2⟩), hr]

theorem sscanf_Handle_snd_of_no_handle (l : CStr) (ch : Nat) (h : handle_of l = none) :
    (sscanf_Handle l ch).2 = ch := by
  rcases sscanf_Handle_of_no_handle l ch h with h0 | ⟨h1, -⟩
  · rw [h0]
  · rw [h1]

theorem match_lines_step_field (name : CStr) (handle : Option Nat) (l : CStr)
    (rest : List CStr) (ch : Nat) (h : handle_of l = none) :
    match_lines name handle (l :: rest) ch =
      if (handle = none ∨ handle = some ch) ∧ (field_value name l).isSome then
        field_value name l
      else match_lines name handle rest ch := by
  have hr := sscanf_Handle_snd_of_no_handle l ch h
  have ht := line_test_iff name l ch
  simp only [match_lines, hr]
  by_cases hp : (name ++ [':']).isPrefixOf (l.dropWhile (· = '\t')) = true
  · have hc := ht.2 ⟨h, hp⟩
    have hf : field_value name l =
        some (((l.dropWhile (· = '\t')).drop (name.length + 1)).dropWhile (· = ' ')) := by
      unfold field_value
      rw [if_pos ⟨h, hp⟩]
    by_cases hh : handle = none ∨ handle = some ch
    · rw [if_pos ⟨hc.1, hh, hc.2⟩, if_pos ⟨hh, by rw [hf]; rfl⟩, hf]
      rfl
    · rw [if_neg (fun hx => hh hx.2.1), if_neg (fun hx => hh hx.1)]
  · have hf : field_value name l = none := by
      unfold field_value
      rw [if_neg (fun hx => hp hx.2)]
    have hc : ¬ (lnot (sscanf_Handle l ch).1 > 0 ∧
        strncmp (l.dropWhile (· = '\t')) name (strlen name) = 0 ∧
        charAt (l.dropWhile (· = '\t')) (strlen name) = ':') := fun hx => hp (ht.1 hx).2
    rw [if_neg (fun hx => hc ⟨hx.1, hx.2.2⟩), if_neg (fun hx => by rw [hf] at hx; simp at hx)]

theorem field_value_handle (name l : CStr) (v : Nat) (h : handle_of l = some v) :
    field_value name l = none := by
  unfold field_value
  rw [if_neg (fun hx => by rw [h] at hx; simp at hx)]

theorem match_lines_no_filter (name : CStr) (ls : List CStr) (ch : Nat) :
    match_lines name none ls ch = ls.findSome? (field_value name) := by
  induction ls generalizing ch with
  | nil => rfl
  | cons l rest ih =>
    cases hh : handle_of l with
    | some v =>
      rw [match_lines_step_handle name none l rest ch v hh, ih, List.findSome?_cons,
        field_value_handle name l v hh]
    | none =>
      rw [match_lines_step_field name none l rest ch hh, List.findSome?_cons]
      cases hf : field_value name l with
      | none => simp [ih]
      | some w => simp

theorem dmidecode_match_eq (env : Env) (name text : CStr) (dmi_type handle : Option Nat)
    (hread : dmidecode_read env dmi_type = some text) :
    dmidecode_match env (some name) dmi_type handle =
      match_lines name handle (terminated_lines text) 0 := by
  simp only [dmidecode_match, hread]
  exact dmidecode_match_loop_eq name handle _ text 0 (Nat.lt_succ_self _)

/-- C8: on a text whose lines are all newline-terminated and with no handle
filter, `dmidecode_match` returns the value of the earliest line whose field
name is exactly `name` followed immediately by a colon (first match wins,
later matching lines are ignored), and it returns absent exactly when no line
of the text matches. -/
theorem dmidecode_match_first_wins (env : Env) (name text : CStr) (dmi_type : Option Nat)
    (hread : dmidecode_read env dmi_type = some text) (hnl : nl_terminated text) :
    dmidecode_match env (some name) dmi_type none =
      (text_lines text).findSome? (field_value name) ∧
    (∀ v, dmidecode_match env (some name) dmi_type none = some v ↔
      ∃ pre l post, text_lines text = pre ++ l :: post ∧ field_value name l = some v ∧
        ∀ m ∈ pre, field_value name m = none) ∧
    (dmidecode_match env (some name) dmi_type none = none ↔
      ∀ l ∈ text_lines text, field_value name l = none) := by
  have h : dmidecode_match env (some name) dmi_type none =
      (text_lines text).findSome? (field_value name) := by
    rw [dmidecode_match_eq env name text dmi_type none hread, match_lines_no_filter,
      text_lines_of_nl_terminated text hnl]
  refine ⟨h, fun v => ?_, ?_⟩
  · rw [h]; exact List.findSome?_eq_some_iff
  · rw [h]; exact List.findSome?_eq_none_iff

/-- Witness of C8: on the two-record text of the specification the first
`Manufacturer` line gives `Acme`. -/
theorem dmidecode_match_first_wins_witness :
    dmidecode_match (env_dmidecode spec_text) (some "Manufacturer".toList) none none =
      some "Acme".toList :=
  (dmidecode_match_first_wins (env_dmidecode spec_text) "Manufacturer".toList spec_text none
    (by decide) (Or.inr (by decide))).1.trans (by decide)

theorem field_value_shape (name fl v : CStr) (h : field_value name fl = some v) :
    handle_of fl = none ∧ ∃ tabs spaces, (∀ c ∈ tabs, c = '\t') ∧ (∀ c ∈ spaces, c = ' ') ∧
      fl = tabs ++ name ++ ':' :: (spaces ++ v) := by
  unfold field_value at h
  split at h
  · rename_i hc
    obtain ⟨hh, hp⟩ := hc
    rw [List.isPrefixOf_iff_prefix] at hp
    obtain ⟨t, ht⟩ := hp
    refine ⟨hh, fl.takeWhile (· = '\t'), t.takeWhile (· = ' '), ?_, ?_, ?_⟩
    · intro c hc
      simpa using List.mem_takeWhile_imp hc
    · intro c hc
      simpa using List.mem_takeWhile_imp hc
    · have hd : (fl.dropWhile (· = '\t')).drop (name.length + 1) = t := by
        rw [← ht]
        have : (name ++ [':']).length = name.length + 1 := by simp
        rw [← this, List.drop_left]
      rw [hd] at h
      cases h
      have h1 := List.takeWhile_append_dropWhile (· = '\t') fl
      have h2 := List.takeWhile_append_dropWhile (· = ' ') t
      calc fl = fl.takeWhile (· = '\t') ++ fl.dropWhile (· = '\t') := h1.symm
        _ = fl.takeWhile (· = '\t') ++ (name ++ [':'] ++ t) := by rw [ht]
        _ = fl.takeWhile (· = '\t') ++ (name ++ [':'] ++
              (t.takeWhile (· = ' ') ++ t.dropWhile (· = ' '))) := by rw [h2]
        _ = _ := by simp
  · cases h

/-- Where a value found under a handle filter comes from: a field line
reached with the current handle equal to the filter, either with no handle
line before it in the lines scanned, or after a handle line carrying the
filter handle with no handle line in between. -/
theorem match_lines_filter_sound (name : CStr) (h : Nat) (ls : List CStr) (ch : Nat) (v : CStr)
    (hv : match_lines name (some h) ls ch = some v) :
    (ch = h ∧ ∃ mid fl post, ls = mid ++ fl :: post ∧ (∀ m ∈ mid, handle_of m = none) ∧
      field_value name fl = some v) ∨
    (∃ pre hl mid fl post, ls = pre ++ hl :: (mid ++ fl :: post) ∧ handle_of hl = some h ∧
      (∀ m ∈ mid, handle_of m = none) ∧ field_value name fl = some v) := by
  induction ls generalizing ch with
  | nil => simp [match_lines] at hv
  | cons l rest ih =>
    cases hh : handle_of l with
    | some w =>
      rw [match_lines_step_handle name (some h) l rest ch w hh] at hv
      rcases ih w hv with ⟨hw, mid, fl, post, hls, hmid, hf⟩ |
          ⟨pre, hl, mid, fl, post, hls, hhl, hmid, hf⟩
      · subst hw
        exact Or.inr ⟨[], l, mid, fl, post, by simp [hls], hh, hmid, hf⟩
      · exact Or.inr ⟨l :: pre, hl, mid, fl, post, by simp [hls], hhl, hmid, hf⟩
    | none =>
      rw [match_lines_step_field name (some h) l rest ch hh] at hv
      split at hv
      · rename_i hc
        have hch : ch = h := by
          rcases hc.1 with h1 | h1
          · cases h1
          · cases h1; rfl
        exact Or.inl ⟨hch, [], l, rest, rfl, by simp, hv⟩
      · rcases ih ch hv with ⟨hw, mid, fl, post, hls, hmid, hf⟩ |
            ⟨pre, hl, mid, fl, post, hls, hhl, hmid, hf⟩
        · refine Or.inl ⟨hw, l :: mid, fl, post, by simp [hls], ?_, hf⟩
          intro m hm
          rcases List.mem_cons.1 hm with rfl | hm
          · exact hh
          · exact hmid m hm
        · exact Or.inr ⟨l :: pre, hl, mid, fl, post, by simp [hls], hhl, hmid, hf⟩

/-- C7: on a text that starts with a handle line, a value `v` returned by
`dmidecode_match(name, type, h)` was taken from a field line `name: v` that
lies after a handle line carrying handle `h` and before the next handle line,
never from a record with another handle.  On the two-record text of the
specification, `Manufacturer` with `h = 0x0002` gives `Acme`. -/
theorem dmidecode_match_handle_filter (env : Env) (name text v : CStr) (dmi_type : Option Nat)
    (h : Nat) (hread : dmidecode_read env dmi_type = some text)
    (hstart : ∃ l0 rest, text_lines text = l0 :: rest ∧ (handle_of l0).isSome = true)
    (hv : dmidecode_match env (some name) dmi_type (some h) = some v) :
    (∃ pre hl mid fl post, text_lines text = pre ++ hl :: (mid ++ fl :: post) ∧
      handle_of hl = some h ∧ (∀ m ∈ mid, handle_of m = none) ∧
      field_value name fl = some v ∧ handle_of fl = none ∧
      ∃ tabs spaces, (∀ c ∈ tabs, c = '\t') ∧ (∀ c ∈ spaces, c = ' ') ∧
        fl = tabs ++ name ++ ':' :: (spaces ++ v)) ∧
    dmidecode_match (env_dmidecode spec_text) (some "Manufacturer".toList) none (some 2) =
      some "Acme".toList := by
  refine ⟨?_, by decide⟩
  rw [dmidecode_match_eq env name text dmi_type (some h) hread] at hv
  obtain ⟨t, ht⟩ := text_lines_eq_terminated_append text
  obtain ⟨l0, rest, hl0, hiso⟩ := hstart
  rcases match_lines_filter_sound name h _ 0 v hv with ⟨-, mid, fl, post, hls, hmid, hf⟩ |
      ⟨pre, hl, mid, fl, post, hls, hhl, hmid, hf⟩
  · exfalso
    rw [hls] at ht
    rw [ht] at hl0
    cases mid with
    | nil =>
      simp only [List.nil_append, List.cons_append, List.cons.injEq] at hl0
      rw [← hl0.1, (field_value_shape name fl v hf).1] at hiso
      simp at hiso
    | cons m mid =>
      simp only [List.cons_append, List.cons.injEq] at hl0
      rw [← hl0.1, hmid m (List.mem_cons_self _ _)] at hiso
      simp at hiso
  · refine ⟨pre, hl, mid, fl, post ++ t, ?_, hhl, hmid, hf, field_value_shape name fl v hf⟩
    rw [ht, hls]
    simp

/-- Witness of C7: the two-record text of the specification, `Manufacturer`,
handle `0x0002`. -/
theorem dmidecode_match_handle_filter_witness :
    ∃ pre hl mid fl post, text_lines spec_text = pre ++ hl :: (mid ++ fl :: post) ∧
      handle_of hl = some 2 ∧ (∀ m ∈ mid, handle_of m = none) ∧
      field_value "Manufacturer".toList fl = some "Acme".toList ∧ handle_of fl = none ∧
      ∃ tabs spaces, (∀ c ∈ tabs, c = '\t') ∧ (∀ c ∈ spaces, c = ' ') ∧
        fl = tabs ++ "Manufacturer".toList ++ ':' :: (spaces ++ "Acme".toList) :=
  (dmidecode_match_handle_filter (env_dmidecode spec_text) "Manufacturer".toList spec_text
    "Acme".toList none 2 (by decide)
    ⟨"Handle 0x0001, DMI type 2".toList, (text_lines spec_text).tail, by decide, by decide⟩
    (by decide)).1

/-! ### The value matcher -/

theorem value_lines_step_handle (name : CStr) (value : Option CStr) (l : CStr)
    (rest : List CStr) (ch v : Nat) (h : handle_of l = some v) :
    value_lines name value (l :: rest) ch = value_lines name value rest v := by
  have hno : ¬ (handle_of l = none ∧
      (name ++ [':']).isPrefixOf (l.dropWhile (· = '\t')) = true) := by
    rw [h]; simp
  have hc := (not_congr (line_test_iff name l ch)).2 hno
  have hr : (sscanf_Handle l ch).2 = v := by rw [sscanf_Handle_of_handle l ch v h]
  simp only [value_lines]
  rw [if_neg (fun hx => hc ⟨hx.1, hx.2.1, hx.2.2.1⟩), hr]

theorem value_lines_step_field (name : CStr) (value : Option CStr) (l : CStr)
    (rest : List CStr) (ch : Nat) (h : handle_of l = none) :
    value_lines name value (l :: rest) ch =
      if value_matches name value l = true then ch :: value_lines name value rest ch
      else value_lines name value rest ch := by
  have hr := sscanf_Handle_snd_of_no_handle l ch h
  have ht := line_test_iff name l ch
  simp only [value_lines, hr]
  by_cases hp : (name ++ [':']).isPrefixOf (l.dropWhile (· = '\t')) = true
  · have hc := ht.2 ⟨h, hp⟩
    have hf : field_value name l =
        some (((l.dropWhile (· = '\t')).drop (name.length + 1)).dropWhile (· = ' ')) := by
      unfold field_value
      rw [if_pos ⟨h, hp⟩]
    cases value with
    | none =>
      have hm : value_matches name none l = true := by
        unfold value_matches
        rw [hf]
      rw [if_pos ⟨hc.1, hc.2.1, hc.2.2, Or.inl rfl⟩, if_pos hm]
    | some w =>
      have hw := strncmp_eq_zero_iff
        (((l.dropWhile (· = '\t')).drop (name.length + 1)).dropWhile (· = ' ')) w
      have hm : value_matches name (some w) l =
          w.isPrefixOf
            (((l.dropWhile (· = '\t')).drop (name.length + 1)).dropWhile (· = ' ')) := by
        unfold value_matches
        rw [hf]
      by_cases hpre : w.isPrefixOf
          (((l.dropWhile (· = '\t')).drop (name.length + 1)).dropWhile (· = ' ')) = true
      · rw [if_pos ⟨hc.1, hc.2.1, hc.2.2, Or.inr (hw.2 hpre)⟩, if_pos (hm.trans hpre)]
      · rw [if_neg, if_neg (fun hx => hpre (hm.symm.trans hx))]
        rintro ⟨-, -, -, hx | hx⟩
        · cases hx
        · exact hpre (hw.1 hx)
  · have hf : field_value name l = none := by
      unfold field_value
      rw [if_neg (fun hx => hp hx.2)]
    have hm : ¬ value_matches name value l = true := by
      unfold value_matches
      rw [hf]
      simp
    rw [if_neg (fun hx => hp (ht.1 ⟨hx.1, hx.2.1, hx.2.2.1⟩).2), if_neg hm]

/-- The handles `dmidecode_match_value` appends over the lines it visits: the
current handle once per matching line before the first handle line, then,
record by record, the handle of the record once per matching line of it. -/
theorem value_lines_records (name : CStr) (value : Option CStr) (ls : List CStr) (ch : Nat) :
    value_lines name value ls ch =
      ((preamble ls).filter (value_matches name value)).map (fun _ => ch) ++
      (records ls).flatMap fun r => (r.2.filter (value_matches name value)).map fun _ => r.1 := by
  induction ls generalizing ch with
  | nil => rfl
  | cons l rest ih =>
    cases hh : handle_of l with
    | some v =>
      rw [value_lines_step_handle name value l rest ch v hh, ih v]
      simp only [preamble, records, hh, Option.isNone_some, List.takeWhile_cons,
        List.filter_nil, List.map_nil, List.nil_append, List.flatMap_cons]
      simp
    | none =>
      rw [value_lines_step_field name value l rest ch hh, ih ch]
      have hp : preamble (l :: rest) = l :: preamble rest := by
        simp [preamble, hh]
      have hr : records (l :: rest) = records rest := by
        simp only [records, hh]
      rw [hp, hr]
      by_cases hm : value_matches name value l = true
      · simp [hm]
      · simp [hm]

theorem dmidecode_match_value_eq (env : Env) (name text : CStr) (value : Option CStr)
    (dmi_type : Option Nat) (hread : dmidecode_read env dmi_type = some text) :
    hl_handles (dmidecode_match_value env (some name) value dmi_type) =
      value_lines name value (terminated_lines text) 0 := by
  simp only [dmidecode_match_value, hread]
  rw [dmidecode_match_value_loop_eq name value _ text none 0 trivial (Nat.lt_succ_self _)]
  rfl

theorem mem_flatMap_of_record (name : CStr) (value : Option CStr)
    (rs : List (Nat × List CStr)) (r : Nat × List CStr) (hr : r ∈ rs)
    (hm : ∃ l ∈ r.2, value_matches name value l = true) :
    r.1 ∈ rs.flatMap fun r => (r.2.filter (value_matches name value)).map fun _ => r.1 := by
  rw [List.mem_flatMap]
  obtain ⟨l, hl, hv⟩ := hm
  refine ⟨r, hr, ?_⟩
  rw [List.mem_map]
  exact ⟨l, List.mem_filter.2 ⟨hl, hv⟩, rfl⟩

theorem sublist_flatMap_of_records (name : CStr) (value : Option CStr)
    (rs : List (Nat × List CStr)) :
    List.Sublist ((rs.filter fun r => r.2.any (value_matches name value)).map Prod.fst)
      (rs.flatMap fun r => (r.2.filter (value_matches name value)).map fun _ => r.1) := by
  induction rs with
  | nil => simp
  | cons r rs ih =>
    rw [List.flatMap_cons]
    by_cases hm : r.2.any (value_matches name value) = true
    · simp only [List.filter_cons, hm, if_true, List.map_cons]
      obtain ⟨l, hl, hv⟩ := List.any_eq_true.1 hm
      have hmem : l ∈ r.2.filter (value_matches name value) := List.mem_filter.2 ⟨hl, hv⟩
      cases hf : r.2.filter (value_matches name value) with
      | nil => rw [hf] at hmem; simp at hmem
      | cons x xs =>
        simp only [List.map_cons, List.cons_append]
        exact List.Sublist.cons₂ _ ((List.sublist_append_of_sublist_right ih))
    · simp only [List.filter_cons, hm, if_false]
      exact List.sublist_append_of_sublist_right ih

theorem flatMap_at_most_one (name : CStr) (value : Option CStr)
    (rs : List (Nat × List CStr))
    (h : ∀ r ∈ rs, (r.2.filter (value_matches name value)).length ≤ 1) :
    (rs.flatMap fun r => (r.2.filter (value_matches name value)).map fun _ => r.1) =
      (rs.filter fun r => r.2.any (value_matches name value)).map Prod.fst := by
  induction rs with
  | nil => rfl
  | cons r rs ih =>
    rw [List.flatMap_cons, ih fun x hx => h x (List.mem_cons_of_mem _ hx)]
    have h1 := h r (List.mem_cons_self _ _)
    cases hf : r.2.filter (value_matches name value) with
    | nil =>
      have hm : ¬ r.2.any (value_matches name value) = true := by
        intro hm
        obtain ⟨l, hl, hv⟩ := List.any_eq_true.1 hm
        have : l ∈ r.2.filter (value_matches name value) := List.mem_filter.2 ⟨hl, hv⟩
        rw [hf] at this
        simp at this
      simp only [List.filter_cons, hm, List.map_nil, List.nil_append]
      simp
    | cons x xs =>
      have hx : x ∈ r.2.filter (value_matches name value) := by rw [hf]; simp
      have hm : r.2.any (value_matches name value) = true :=
        List.any_eq_true.2 ⟨x, (List.mem_filter.1 hx).1, (List.mem_filter.1 hx).2⟩
      rw [hf] at h1
      have hxs : xs = [] := by
        cases xs with
        | nil => rfl
        | cons y ys => simp at h1
      simp only [List.filter_cons, hm, if_true, List.map_cons, hxs, List.map_nil,
        List.cons_append, List.nil_append]

/-- C9: on a text whose lines are all newline-terminated, the list
`dmidecode_match_value(name, value, type)` returns contains the handle of
every record that has a field line `name:` whose value starts with `value`
(any value when `value` is unspecified), and the handles occur in the order
their records appear in the text.  On the two-record text of the
specification, `Manufacturer` with value `Acme` gives the list 1, 2. -/
theorem dmidecode_match_value_records (env : Env) (name text : CStr) (value : Option CStr)
    (dmi_type : Option Nat) (hread : dmidecode_read env dmi_type = some text)
    (hnl : nl_terminated text) :
    (∀ r ∈ records (text_lines text), (∃ l ∈ r.2, value_matches name value l = true) →
      r.1 ∈ hl_handles (dmidecode_match_value env (some name) value dmi_type)) ∧
    List.Sublist
      (((records (text_lines text)).filter fun r => r.2.any (value_matches name value)).map
        Prod.fst)
      (hl_handles (dmidecode_match_value env (some name) value dmi_type)) ∧
    dmidecode_match_value (env_dmidecode spec_text) (some "Manufacturer".toList)
      (some "Acme".toList) none = some ⟨2, [1, 2]⟩ := by
  have h := dmidecode_match_value_eq env name text value dmi_type hread
  rw [value_lines_records, ← text_lines_of_nl_terminated text hnl] at h
  refine ⟨fun r hr hm => ?_, ?_, by decide⟩
  · rw [h]
    exact List.mem_append_right _ (mem_flatMap_of_record name value _ r hr hm)
  · rw [h]
    exact List.sublist_append_of_sublist_right (sublist_flatMap_of_records name value _)

/-- Witness of C9: the two-record text of the specification; both records
have a `Manufacturer` line whose value starts with `Acme`. -/
theorem dmidecode_match_value_records_witness :
    List.Sublist
      (((records (text_lines spec_text)).filter fun r =>
        r.2.any (value_matches "Manufacturer".toList (some "Acme".toList))).map Prod.fst)
      (hl_handles (dmidecode_match_value (env_dmidecode spec_text)
        (some "Manufacturer".toList) (some "Acme".toList) none)) :=
  (dmidecode_match_value_records (env_dmidecode spec_text) "Manufacturer".toList spec_text
    (some "Acme".toList) none (by decide) (Or.inr (by decide))).2.1

/-- C10, counterexample: a record with two field lines `Manufacturer: Acme`
has its handle twice in the list returned. -/
theorem dmidecode_match_value_twice_counterexample :
    ¬ (∀ (env : Env) (name text : CStr) (value : Option CStr) (dmi_type : Option Nat),
      dmidecode_read env dmi_type = some text →
      ∀ r ∈ records (text_lines text),
        (hl_handles (dmidecode_match_value env (some name) value dmi_type)).count r.1 ≤ 1) := by
  intro h
  have h1 := h (env_dmidecode twice_text) "Manufacturer".toList twice_text
    (some "Acme".toList) none (by decide)
    (1, ["\tManufacturer: Acme".toList, "\tManufacturer: Acme".toList]) (by decide)
  revert h1
  decide

/-- C10, amended: each record contributes its handle once per matching field
line among the newline-terminated lines (a matching line before the first
handle line contributes the initial handle 0); so a record contributes at
most once when at most one of its field lines matches `name` and `value`. -/
theorem dmidecode_match_value_once_per_line (env : Env) (name text : CStr)
    (value : Option CStr) (dmi_type : Option Nat)
    (hread : dmidecode_read env dmi_type = some text) :
    hl_handles (dmidecode_match_value env (some name) value dmi_type) =
      List.replicate ((preamble (terminated_lines text)).filter
        (value_matches name value)).length 0 ++
      ((records (terminated_lines text)).flatMap fun r =>
        List.replicate (r.2.filter (value_matches name value)).length r.1) ∧
    ((∀ r ∈ records (terminated_lines text),
        (r.2.filter (value_matches name value)).length ≤ 1) →
      hl_handles (dmidecode_match_value env (some name) value dmi_type) =
        List.replicate ((preamble (terminated_lines text)).filter
          (value_matches name value)).length 0 ++
        ((records (terminated_lines text)).filter fun r =>
          r.2.any (value_matches name value)).map Prod.fst) := by
  have h := dmidecode_match_value_eq env name text value dmi_type hread
  rw [value_lines_records] at h
  constructor
  · rw [h]
    simp only [List.map_const']
  · intro hone
    rw [h, flatMap_at_most_one name value _ hone]
    simp only [List.map_const']

/-- Witness of C10: on the two-record text of the specification every record
has one matching line and contributes once. -/
theorem dmidecode_match_value_once_per_line_witness :
    hl_handles (dmidecode_match_value (env_dmidecode spec_text) (some "Manufacturer".toList)
      (some "Acme".toList) none) =
      List.replicate ((preamble (terminated_lines spec_text)).filter
        (value_matches "Manufacturer".toList (some "Acme".toList))).length 0 ++
      ((records (terminated_lines spec_text)).filter fun r =>
        r.2.any (value_matches "Manufacturer".toList (some "Acme".toList))).map Prod.fst :=
  (dmidecode_match_value_once_per_line (env_dmidecode spec_text) "Manufacturer".toList
    spec_text (some "Acme".toList) none (by decide)).2 (by decide)

/-! ### Handle lists -/

theorem hl_wf_of_ok (hl : Option dmi_handle_list) (h : hl_ok hl) : hl_wf hl := by
  cases hl with
  | none => trivial
  | some l => exact h.1

theorem dmi_handle_list_add_ok (hl : Option dmi_handle_list) (v : Nat) (h : hl_ok hl) :
    hl_ok (dmi_handle_list_add hl v) := by
  cases hl with
  | none => simp [dmi_handle_list_add, hl_ok]
  | some l =>
    obtain ⟨count, handles⟩ := l
    simp only [hl_ok] at h
    simp only [dmi_handle_list_add, hl_ok, realloc, List.length_set, List.length_append,
      List.length_take, List.length_replicate]
    omega

theorem hl_eq_of_ok (hl : Option dmi_handle_list) (h : hl_ok hl) :
    hl = hl_of_list (hl_handles hl) := by
  cases hl with
  | none => rfl
  | some l =>
    obtain ⟨count, handles⟩ := l
    simp only [hl_ok] at h
    obtain ⟨h1, h2⟩ := h
    subst h1
    simp only [hl_handles, List.take_length]
    cases handles with
    | nil => simp at h2
    | cons a t => rfl

theorem hl_handles_of_list (l : List Nat) : hl_handles (hl_of_list l) = l := by
  cases l with
  | nil => rfl
  | cons a t => simp [hl_of_list, hl_handles]

theorem hl_ok_of_list (l : List Nat) : hl_ok (hl_of_list l) := by
  cases l with
  | nil => trivial
  | cons a t => simp [hl_of_list, hl_ok]

theorem dmi_handle_list_add_of_list (l : List Nat) (v : Nat) :
    dmi_handle_list_add (hl_of_list l) v = hl_of_list (l ++ [v]) := by
  have hok := dmi_handle_list_add_ok _ v (hl_ok_of_list l)
  rw [hl_eq_of_ok _ hok,
    (dmi_handle_list_add_spec _ v (hl_wf_of_ok _ (hl_ok_of_list l))).2, hl_handles_of_list]

theorem foldl_dmi_handle_list_add (l hs : List Nat) :
    hs.foldl dmi_handle_list_add (hl_of_list l) = hl_of_list (l ++ hs) := by
  induction hs generalizing l with
  | nil => simp
  | cons h hs ih =>
    rw [List.foldl_cons, dmi_handle_list_add_of_list, ih]
    simp

/-- C12: appending the handles `h1..hN`, `N >= 1`, one after the other with
`dmi_handle_list_add`, starting from an absent list, yields a list with count
`N` whose elements are `h1..hN` in insertion order; one more append increases
the count by one and leaves the earlier elements unchanged. -/
theorem dmi_handle_list_add_sequence (hs : List Nat) (hne : hs ≠ []) :
    hs.foldl dmi_handle_list_add none = some ⟨hs.length, hs⟩ ∧
    (∀ i (hi : i < hs.length),
      (hl_handles (hs.foldl dmi_handle_list_add none))[i]? = some (hs.get ⟨i, hi⟩)) ∧
    (∀ h, dmi_handle_list_add (hs.foldl dmi_handle_list_add none) h =
      some ⟨hs.length + 1, hs ++ [h]⟩) ∧
    (∀ h, dmi_handle_list_add none h = some ⟨1, [h]⟩) := by
  have hf : hs.foldl dmi_handle_list_add none = hl_of_list hs := by
    have := foldl_dmi_handle_list_add [] hs
    simpa [hl_of_list] using this
  have hs_eq : hl_of_list hs = some ⟨hs.length, hs⟩ := by
    cases hs with
    | nil => exact absurd rfl hne
    | cons a t => rfl
  refine ⟨hf.trans hs_eq, fun i hi => ?_, fun h => ?_, fun h => rfl⟩
  · rw [hf, hl_handles_of_list]
    simp [List.getElem?_eq_getElem hi]
  · rw [hf, dmi_handle_list_add_of_list]
    cases hs with
    | nil => exact absurd rfl hne
    | cons a t => simp [hl_of_list]

/-- Witness of C12: three handles appended to an absent list. -/
theorem dmi_handle_list_add_sequence_witness :
    [7, 1, 7].foldl dmi_handle_list_add none = some ⟨3, [7, 1, 7]⟩ :=
  (dmi_handle_list_add_sequence [7, 1, 7] (by decide)).1

/-- C17: `dmi_sysfs_root` returns the first candidate that exists, primary
then legacy: `/sys/devices/virtual/dmi` whenever it exists, otherwise
`/sys/class/dmi` when that exists, and none exactly when neither exists. -/
theorem dmi_sysfs_root_first_existing (env : Env) :
    dmi_sysfs_root env =
      (if env.access "/sys/devices/virtual/dmi".toList = true then
        some "/sys/devices/virtual/dmi".toList
      else if env.access "/sys/class/dmi".toList = true then some "/sys/class/dmi".toList
      else none) ∧
    (dmi_sysfs_root env = none ↔
      (env.access "/sys/devices/virtual/dmi".toList = false ∧
        env.access "/sys/class/dmi".toList = false)) := by
  have h : dmi_sysfs_root env =
      (if env.access "/sys/devices/virtual/dmi".toList = true then
        some "/sys/devices/virtual/dmi".toList
      else if env.access "/sys/class/dmi".toList = true then some "/sys/class/dmi".toList
      else none) := rfl
  refine ⟨h, ?_⟩
  rw [h]
  cases env.access "/sys/devices/virtual/dmi".toList <;>
    cases env.access "/sys/class/dmi".toList <;> simp

/-! ### The handle enumerator -/

theorem dmidecode_handles_loop_eq (fuel : Nat) (p : CStr) (hl : Option dmi_handle_list)
    (ch : Nat) (hok : hl_ok hl) (h : p.length < fuel) :
    hl_ok (dmidecode_handles_loop fuel p hl ch) ∧
    hl_handles (dmidecode_handles_loop fuel p hl ch) =
      hl_handles hl ++ (terminated_lines p).filterMap handle_of := by
  induction fuel generalizing p hl ch with
  | zero => omega
  | succ fuel ih =>
    simp only [dmidecode_handles_loop]
    cases hs : strchr p '\n' with
    | none =>
      simp only [terminated_lines_of_strchr_none p hs, List.filterMap_nil, List.append_nil]
      exact ⟨hok, trivial⟩
    | some nx =>
      obtain ⟨h1, h2⟩ := terminated_lines_of_strchr_some p nx hs
      simp only [h1]
      cases hh : handle_of (strend p '\n') with
      | some v =>
        rw [sscanf_Handle_of_handle _ ch v hh]
        have hadd := dmi_handle_list_add_spec hl v (hl_wf_of_ok hl hok)
        have hok2 := dmi_handle_list_add_ok hl v hok
        obtain ⟨i1, i2⟩ := ih nx.tail (dmi_handle_list_add hl v) v hok2 (by omega)
        have hpos : ((1 : Int), v).1 > 0 := by simp
        simp only [hpos, if_true, List.filterMap_cons, hh]
        refine ⟨i1, ?_⟩
        rw [i2, hadd.2]
        simp
      | none =>
        have hno : ¬ (sscanf_Handle (strend p '\n') ch).1 > 0 := by
          rcases sscanf_Handle_of_no_handle _ ch hh with h0 | ⟨h0, -⟩ <;> rw [h0] <;>
            simp
        have hr := sscanf_Handle_snd_of_no_handle _ ch hh
        simp only [hno, if_false, hr, List.filterMap_cons, hh]
        exact ih nx.tail hl ch hok (by omega)

theorem dmidecode_handles_eq (env : Env) (text : CStr) (dmi_type : Option Nat)
    (hread : dmidecode_read env dmi_type = some text) :
    dmidecode_handles env dmi_type =
      hl_of_list ((terminated_lines text).filterMap handle_of) := by
  simp only [dmidecode_handles, hread]
  obtain ⟨h1, h2⟩ := dmidecode_handles_loop_eq (text.length + 1) text none 0 trivial
    (Nat.lt_succ_self _)
  rw [hl_eq_of_ok _ h1, h2]
  rfl

theorem handle_of_tab_indented (l : CStr) (h : tab_indented l = true) : handle_of l = none := by
  cases l with
  | nil => rfl
  | cons a t =>
    simp only [tab_indented, List.head?_cons, beq_iff_eq, Option.some.injEq] at h
    subst h
    rfl

theorem filterMap_handle_of_filter (ls : List CStr) :
    (ls.filter fun l => !tab_indented l).filterMap handle_of = ls.filterMap handle_of := by
  induction ls with
  | nil => rfl
  | cons l ls ih =>
    by_cases ht : tab_indented l = true
    · rw [List.filterMap_cons, handle_of_tab_indented l ht, ← ih]
      simp [List.filter_cons, ht]
    · simp only [Bool.not_eq_true] at ht
      simp only [List.filter_cons, ht, Bool.not_false, if_true, List.filterMap_cons, ih]

theorem hexval_not_space (d : Char) (h : (hexval d).isSome = true) :
    isspace d = false ∧ d ≠ '-' ∧ d ≠ '+' := by
  refine ⟨?_, ?_, ?_⟩
  · cases hs : isspace d with
    | false => rfl
    | true =>
      exfalso
      simp only [isspace, Bool.decide_or, Bool.or_eq_true, decide_eq_true_eq] at hs
      rcases hs with hs | hs | hs | hs | hs | hs <;> subst hs <;> revert h <;> decide
  · rintro rfl; revert h; decide
  · rintro rfl; revert h; decide

theorem conv_X_of_hex (d : Char) (rest : CStr) (h : (hexval d).isSome = true) :
    ∃ v, conv_X (d :: rest) = (1, some v) := by
  obtain ⟨hsp, hm, hp⟩ := hexval_not_space d h
  rcases conv_X_shape (d :: rest) with hx | hx | ⟨-, hx⟩
  · exact hx
  · exfalso
    unfold conv_X at hx
    rw [List.dropWhile_cons_of_neg (by simp [hsp])] at hx
    simp only [hm, hp, or_self, if_false] at hx
    split at hx
    · rename_i heq
      split at heq
      · split at heq <;> cases heq
      · simp only [List.takeWhile_cons, h, if_true] at heq
        simp at heq
    · simp at hx
  · have := hx d (List.mem_cons_self _ _)
    rw [hsp] at this
    cases this

theorem handle_of_handle_form (d : Char) (rest : CStr) (h : (hexval d).isSome = true) :
    (handle_of ("Handle 0x".toList ++ d :: rest)).isSome = true := by
  have hs : scan_Handle ("Handle 0x".toList ++ d :: rest) = conv_X (d :: rest) := rfl
  obtain ⟨v, hv⟩ := conv_X_of_hex d rest h
  unfold handle_of
  rw [hs, hv]
  rfl

/-- C11: on a text whose lines are all newline-terminated, `dmidecode_handles`
returns the handles of the handle lines (every line of the form
`Handle 0x<hex>...` is one), one entry per handle line and in text order; a
tab-indented line is never a handle line, so two texts that differ only in
their tab-indented lines (changed, added or removed) give the same result. -/
theorem dmidecode_handles_lines (env env2 : Env) (text text2 : CStr)
    (dmi_type dmi_type2 : Option Nat)
    (hread : dmidecode_read env dmi_type = some text) (hnl : nl_terminated text)
    (hread2 : dmidecode_read env2 dmi_type2 = some text2) (hnl2 : nl_terminated text2) :
    dmidecode_handles env dmi_type = hl_of_list ((text_lines text).filterMap handle_of) ∧
    (∀ d rest, (hexval d).isSome = true →
      (handle_of ("Handle 0x".toList ++ d :: rest)).isSome = true) ∧
    (∀ l, tab_indented l = true → handle_of l = none) ∧
    ((text_lines text).filter (fun l => !tab_indented l) =
        (text_lines text2).filter (fun l => !tab_indented l) →
      dmidecode_handles env dmi_type = dmidecode_handles env2 dmi_type2) ∧
    dmidecode_handles (env_dmidecode spec_text) none = some ⟨2, [1, 2]⟩ := by
  have h1 := dmidecode_handles_eq env text dmi_type hread
  have h2 := dmidecode_handles_eq env2 text2 dmi_type2 hread2
  rw [← text_lines_of_nl_terminated text hnl] at h1
  rw [← text_lines_of_nl_terminated text2 hnl2] at h2
  refine ⟨h1, handle_of_handle_form, handle_of_tab_indented, fun hf => ?_, by decide⟩
  rw [h1, h2, ← filterMap_handle_of_filter (text_lines text), hf, filterMap_handle_of_filter]

/-- Witness of C11: the two-record text of the specification and the same
text without its field lines have the same handles. -/
theorem dmidecode_handles_lines_witness :
    dmidecode_handles (env_dmidecode spec_text) none =
      dmidecode_handles (env_dmidecode spec_text_handle_lines) none :=
  (dmidecode_handles_lines (env_dmidecode spec_text) (env_dmidecode spec_text_handle_lines)
    spec_text spec_text_handle_lines none none (by decide) (Or.inr (by decide)) (by decide)
    (Or.inr (by decide))).2.2.2.1 (by decide)

/-! ### Scans that find nothing -/

theorem mem_text_lines_of_mem_terminated (text l : CStr) (h : l ∈ terminated_lines text) :
    l ∈ text_lines text := by
  obtain ⟨t, ht⟩ := text_lines_eq_terminated_append text
  rw [ht]
  exact List.mem_append_left _ h

theorem match_lines_sound (name : CStr) (handle : Option Nat) (ls : List CStr) (ch : Nat)
    (v : CStr) (hv : match_lines name handle ls ch = some v) :
    ∃ l ∈ ls, field_value name l = some v := by
  induction ls generalizing ch with
  | nil => simp [match_lines] at hv
  | cons l rest ih =>
    cases hh : handle_of l with
    | some w =>
      rw [match_lines_step_handle name handle l rest ch w hh] at hv
      obtain ⟨m, hm, hf⟩ := ih w hv
      exact ⟨m, List.mem_cons_of_mem _ hm, hf⟩
    | none =>
      rw [match_lines_step_field name handle l rest ch hh] at hv
      split at hv
      · exact ⟨l, List.mem_cons_self _ _, hv⟩
      · obtain ⟨m, hm, hf⟩ := ih ch hv
        exact ⟨m, List.mem_cons_of_mem _ hm, hf⟩

theorem value_lines_nil_of_no_match (name : CStr) (value : Option CStr) (ls : List CStr)
    (ch : Nat) (h : ∀ l ∈ ls, value_matches name value l = false) :
    value_lines name value ls ch = [] := by
  induction ls generalizing ch with
  | nil => rfl
  | cons l rest ih =>
    have hl := h l (List.mem_cons_self _ _)
    have hrest : ∀ m ∈ rest, value_matches name value m = false :=
      fun m hm => h m (List.mem_cons_of_mem _ hm)
    cases hh : handle_of l with
    | some w => rw [value_lines_step_handle name value l rest ch w hh, ih w hrest]
    | none =>
      rw [value_lines_step_field name value l rest ch hh, hl, ih ch hrest]
      simp

theorem dmidecode_match_value_loop_ok (name : CStr) (value : Option CStr) (fuel : Nat)
    (p : CStr) (hl : Option dmi_handle_list) (ch : Nat) (hok : hl_ok hl) :
    hl_ok (dmidecode_match_value_loop name value fuel p hl ch) := by
  induction fuel generalizing p hl ch with
  | zero => exact hok
  | succ fuel ih =>
    simp only [dmidecode_match_value_loop]
    cases hs : strchr p '\n' with
    | none => exact hok
    | some nx =>
      simp only
      split
      · exact ih _ _ _ (dmi_handle_list_add_ok _ _ hok)
      · exact ih _ _ _ hok

theorem dmidecode_match_value_ok (env : Env) (name value : Option CStr)
    (dmi_type : Option Nat) : hl_ok (dmidecode_match_value env name value dmi_type) := by
  unfold dmidecode_match_value
  cases name with
  | none => trivial
  | some name =>
    cases dmidecode_read env dmi_type with
    | none => trivial
    | some full => exact dmidecode_match_value_loop_ok name value _ full none 0 trivial

theorem dmidecode_handles_loop_ok (fuel : Nat) (p : CStr) (hl : Option dmi_handle_list)
    (ch : Nat) (hok : hl_ok hl) : hl_ok (dmidecode_handles_loop fuel p hl ch) := by
  induction fuel generalizing p hl ch with
  | zero => exact hok
  | succ fuel ih =>
    simp only [dmidecode_handles_loop]
    cases hs : strchr p '\n' with
    | none => exact hok
    | some nx =>
      simp only
      split
      · exact ih _ _ _ (dmi_handle_list_add_ok _ _ hok)
      · exact ih _ _ _ hok

theorem dmidecode_handles_ok (env : Env) (dmi_type : Option Nat) :
    hl_ok (dmidecode_handles env dmi_type) := by
  unfold dmidecode_handles
  cases dmidecode_read env dmi_type with
  | none => trivial
  | some full => exact dmidecode_handles_loop_ok _ full none 0 trivial

theorem dmidecode_match_value_eq_of_list (env : Env) (name text : CStr)
    (value : Option CStr) (dmi_type : Option Nat)
    (hread : dmidecode_read env dmi_type = some text) :
    dmidecode_match_value env (some name) value dmi_type =
      hl_of_list (value_lines name value (terminated_lines text) 0) := by
  rw [hl_eq_of_ok _ (dmidecode_match_value_ok env (some name) value dmi_type),
    dmidecode_match_value_eq env name text value dmi_type hread]

/-- C13: when no line of the text matches, `dmidecode_match` returns absent
and `dmidecode_match_value` returns a null handle list, not an allocated
empty one; likewise `dmidecode_handles` on a text with no handle line.  A
handle list these scans return has count at least 1. -/
theorem scans_absent_when_nothing_matches (env : Env) (name text : CStr)
    (value : Option CStr) (dmi_type handle : Option Nat)
    (hread : dmidecode_read env dmi_type = some text) :
    ((∀ l ∈ text_lines text, field_value name l = none) →
      dmidecode_match env (some name) dmi_type handle = none) ∧
    ((∀ l ∈ text_lines text, value_matches name value l = false) →
      dmidecode_match_value env (some name) value dmi_type = none) ∧
    ((∀ l ∈ text_lines text, handle_of l = none) → dmidecode_handles env dmi_type = none) ∧
    (∀ hl, dmidecode_match_value env (some name) value dmi_type = some hl →
      1 ≤ hl.count ∧ hl.count = hl.handles.length) ∧
    (∀ hl, dmidecode_handles env dmi_type = some hl →
      1 ≤ hl.count ∧ hl.count = hl.handles.length) := by
  refine ⟨fun h => ?_, fun h => ?_, fun h => ?_, fun hl h => ?_, fun hl h => ?_⟩
  · rw [dmidecode_match_eq env name text dmi_type handle hread]
    cases hm : match_lines name handle (terminated_lines text) 0 with
    | none => rfl
    | some v =>
      obtain ⟨l, hl, hf⟩ := match_lines_sound name handle _ 0 v hm
      rw [h l (mem_text_lines_of_mem_terminated text l hl)] at hf
      cases hf
  · rw [dmidecode_match_value_eq_of_list env name text value dmi_type hread,
      value_lines_nil_of_no_match name value _ 0
        fun l hl => h l (mem_text_lines_of_mem_terminated text l hl)]
    rfl
  · rw [dmidecode_handles_eq env text dmi_type hread]
    have : (terminated_lines text).filterMap handle_of = [] := by
      rw [List.filterMap_eq_nil_iff]
      exact fun l hl => h l (mem_text_lines_of_mem_terminated text l hl)
    rw [this]
    rfl
  · have hok := dmidecode_match_value_ok env (some name) value dmi_type
    rw [h] at hok
    exact ⟨hok.2, hok.1⟩
  · have hok := dmidecode_handles_ok env dmi_type
    rw [h] at hok
    exact ⟨hok.2, hok.1⟩

/-- Witness of C13: on the two-record text of the specification no line has
a field `Vendor` and no line has a field `Manufacturer` starting with `Zeta`. -/
theorem scans_absent_when_nothing_matches_witness :
    dmidecode_match (env_dmidecode spec_text) (some "Vendor".toList) none none = none ∧
    dmidecode_match_value (env_dmidecode spec_text) (some "Manufacturer".toList)
      (some "Zeta".toList) none = none :=
  have h := scans_absent_when_nothing_matches (env_dmidecode spec_text) "Vendor".toList
    spec_text none none none (by decide)
  have h2 := scans_absent_when_nothing_matches (env_dmidecode spec_text) "Manufacturer".toList
    spec_text (some "Zeta".toList) none none (by decide)
  ⟨h.1 (by decide), h2.2.1 (by decide)⟩

/-! ### Null and empty field names -/

/-- C14, counterexample: with the empty field name and a text that has the
field line tab, colon, space, `x`, `dmidecode_match` returns `x` and
`dmidecode_match_value` returns a list: only a null name is rejected. -/
theorem empty_name_counterexample :
    ¬ (∀ (env : Env) (name value : Option CStr) (dmi_type handle : Option Nat),
      (name = none ∨ name = some []) →
      dmidecode_match env name dmi_type handle = none ∧
        dmidecode_match_value env name value dmi_type = none) := by
  intro h
  have h1 := (h (env_dmidecode colon_text) (some []) none none none (Or.inr rfl)).1
  revert h1
  decide

theorem field_value_empty_name (l : CStr) :
    (field_value [] l).isSome = true ↔
      (handle_of l = none ∧ (l.dropWhile (· = '\t')).head? = some ':') := by
  unfold field_value
  have hp : ([] ++ [':']).isPrefixOf (l.dropWhile (· = '\t')) = true ↔
      (l.dropWhile (· = '\t')).head? = some ':' := by
    cases l.dropWhile (· = '\t') with
    | nil => simp [List.isPrefixOf]
    | cons a t =>
      simp only [List.nil_append, List.isPrefixOf, Bool.and_true, beq_iff_eq, List.head?_cons,
        Option.some.injEq]
      exact eq_comm
  rw [← hp]
  split
  · rename_i hc
    simpa using hc
  · rename_i hc
    simpa using hc

/-- C14, amended: `dmidecode_match` and `dmidecode_match_value` return absent
when the field name is null.  An empty name is not rejected: it matches the
lines that are not handle lines and whose first character after the leading
tabs is a colon, and the scans return what they find on those lines. -/
theorem null_name_absent (env : Env) (value : Option CStr) (dmi_type handle : Option Nat) :
    dmidecode_match env none dmi_type handle = none ∧
    dmidecode_match_value env none value dmi_type = none ∧
    (∀ text, dmidecode_read env dmi_type = some text →
      dmidecode_match env (some []) dmi_type none =
          (terminated_lines text).findSome? (field_value []) ∧
        dmidecode_match_value env (some []) value dmi_type =
          hl_of_list (((preamble (terminated_lines text)).filter
              (value_matches [] value)).map (fun _ => 0) ++
            (records (terminated_lines text)).flatMap fun r =>
              (r.2.filter (value_matches [] value)).map fun _ => r.1)) ∧
    (∀ l, (field_value [] l).isSome = true ↔
      (handle_of l = none ∧ (l.dropWhile (· = '\t')).head? = some ':')) := by
  refine ⟨rfl, rfl, fun text hread => ⟨?_, ?_⟩, field_value_empty_name⟩
  · rw [dmidecode_match_eq env [] text dmi_type none hread, match_lines_no_filter]
  · rw [dmidecode_match_value_eq_of_list env [] text value dmi_type hread, value_lines_records]

/-- Witness of C14: the text with the field line tab, colon, space, `x` read
with the empty name. -/
theorem null_name_absent_witness :
    dmidecode_match (env_dmidecode colon_text) (some []) none none = some "x".toList :=
  (((null_name_absent (env_dmidecode colon_text) none none none).2.2.1 colon_text
    (by decide)).1).trans (by decide)

/-! ### The unterminated final line -/

theorem terminated_lines_of_no_newline (p : CStr) (h : '\n' ∉ p) : terminated_lines p = [] := by
  induction p with
  | nil => rfl
  | cons a s ih =>
    have ha : ¬ a = '\n' := fun e => h (by simp [e])
    have hs : '\n' ∉ s := fun e => h (List.mem_cons_of_mem _ e)
    simp only [terminated_lines, ha, if_false, ih hs]

theorem terminated_lines_append (body last : CStr) (h : '\n' ∉ last) :
    terminated_lines (body ++ last) = terminated_lines body := by
  induction body with
  | nil => simpa using terminated_lines_of_no_newline last h
  | cons a s ih =>
    by_cases ha : a = '\n'
    · simp [terminated_lines, ha, ih]
    · have ih2 : terminated_lines (s.append last) = terminated_lines s := ih
      simp only [List.cons_append, terminated_lines, ha, if_false, ih2]

/-- C15, counterexample: a text whose final line, a `Manufacturer` field
line, is not terminated: `dmidecode_match` finds nothing, but finds `Acme`
once a newline is appended. -/
theorem unterminated_line_counterexample :
    ¬ (∀ (env env2 : Env) (text : CStr) (name value : Option CStr)
        (dmi_type handle : Option Nat),
      text ≠ [] → text.getLast? ≠ some '\n' →
      dmidecode_read env dmi_type = some text →
      dmidecode_read env2 dmi_type = some (text ++ ['\n']) →
      dmidecode_handles env dmi_type = dmidecode_handles env2 dmi_type ∧
        dmidecode_match env name dmi_type handle = dmidecode_match env2 name dmi_type handle ∧
        dmidecode_match_value env name value dmi_type =
          dmidecode_match_value env2 name value dmi_type) := by
  intro h
  have h1 := (h (env_dmidecode unterminated_text) (env_dmidecode (unterminated_text ++ ['\n']))
    unterminated_text (some "Manufacturer".toList) none none none (by decide) (by decide)
    (by decide) (by decide)).2.1
  revert h1
  decide

/-- C15, amended: an unterminated final line is not scanned: each of the
three scans returns on a text the same result as on that text without the
characters that follow its last newline. -/
theorem unterminated_line_ignored (env env2 : Env) (body last : CStr)
    (name value : Option CStr) (dmi_type dmi_type2 handle : Option Nat)
    (hlast : '\n' ∉ last)
    (hread : dmidecode_read env dmi_type = some (body ++ last))
    (hread2 : dmidecode_read env2 dmi_type2 = some body) :
    dmidecode_handles env dmi_type = dmidecode_handles env2 dmi_type2 ∧
    dmidecode_match env name dmi_type handle = dmidecode_match env2 name dmi_type2 handle ∧
    dmidecode_match_value env name value dmi_type =
      dmidecode_match_value env2 name value dmi_type2 := by
  have ht := terminated_lines_append body last hlast
  refine ⟨?_, ?_, ?_⟩
  · rw [dmidecode_handles_eq env _ dmi_type hread, dmidecode_handles_eq env2 _ dmi_type2 hread2,
      ht]
  · cases name with
    | none => rfl
    | some name =>
      rw [dmidecode_match_eq env name _ dmi_type handle hread,
        dmidecode_match_eq env2 name _ dmi_type2 handle hread2, ht]
  · cases name with
    | none => rfl
    | some name =>
      rw [dmidecode_match_value_eq_of_list env name _ value dmi_type hread,
        dmidecode_match_value_eq_of_list env2 name _ value dmi_type2 hread2, ht]

/-- Witness of C15: the record whose field line is unterminated gives the
results of its handle line alone. -/
theorem unterminated_line_ignored_witness :
    dmidecode_match (env_dmidecode unterminated_text) (some "Manufacturer".toList) none none =
      dmidecode_match (env_dmidecode "Handle 0x0001, DMI type 2\n".toList)
        (some "Manufacturer".toList) none none :=
  (unterminated_line_ignored (env_dmidecode unterminated_text)
    (env_dmidecode "Handle 0x0001, DMI type 2\n".toList) "Handle 0x0001, DMI type 2\n".toList
    "\tManufacturer: Acme".toList (some "Manufacturer".toList) none none none none
    (by decide) (by decide) (by decide)).2.1

/-! ### The value returned by the field extractor -/

theorem terminated_lines_no_newline (p l : CStr) (h : l ∈ terminated_lines p) : '\n' ∉ l := by
  induction p generalizing l with
  | nil => simp [terminated_lines] at h
  | cons a s ih =>
    by_cases ha : a = '\n'
    · simp only [terminated_lines, ha, if_true, List.mem_cons] at h
      rcases h with rfl | h
      · simp
      · exact ih l h
    · simp only [terminated_lines, ha, if_false] at h
      cases hs : terminated_lines s with
      | nil => rw [hs] at h; simp at h
      | cons l0 ls =>
        rw [hs] at h
        simp only [List.mem_cons] at h
        rcases h with rfl | h
        · have h0 := ih l0 (by rw [hs]; exact List.mem_cons_self _ _)
          intro hm
          rcases List.mem_cons.1 hm with e | e
          · exact ha e.symm
          · exact h0 e
        · exact ih l (by rw [hs]; exact List.mem_cons_of_mem _ h)

theorem head_dropWhile_space (t : CStr) : (t.dropWhile (· = ' ')).head? ≠ some ' ' := by
  induction t with
  | nil => simp
  | cons a t ih =>
    by_cases ha : a = ' '
    · simpa [List.dropWhile_cons, ha] using ih
    · simp [List.dropWhile_cons, ha]

theorem field_value_head (name l v : CStr) (h : field_value name l = some v) :
    v.head? ≠ some ' ' := by
  unfold field_value at h
  split at h
  · cases h
    exact head_dropWhile_space _
  · cases h

/-- C16, counterexample: from a `Manufacturer` line that ends with two spaces
`dmidecode_match` returns `Acme` followed by the two spaces. -/
theorem trailing_space_counterexample :
    ¬ (∀ (env : Env) (name : Option CStr) (dmi_type handle : Option Nat) (v : CStr),
      dmidecode_match env name dmi_type handle = some v →
      (∀ c, v.head? = some c → isspace c = false) ∧
        (∀ c, v.getLast? = some c → isspace c = false)) := by
  intro h
  have h1 := (h (env_dmidecode trailing_text) (some "Manufacturer".toList) none none
    "Acme  ".toList (by decide)).2 ' ' (by decide)
  revert h1
  decide

/-- C16, amended: a value returned by `dmidecode_match` is the rest of a
field line after the colon and the spaces that follow it: it does not begin
with a space and contains no newline; white space at the end of the line (and
a tab or other white space after the skipped spaces) is kept. -/
theorem dmidecode_match_result_shape (env : Env) (name text v : CStr)
    (dmi_type handle : Option Nat) (hread : dmidecode_read env dmi_type = some text)
    (hv : dmidecode_match env (some name) dmi_type handle = some v) :
    v.head? ≠ some ' ' ∧ '\n' ∉ v ∧
    ∃ l ∈ text_lines text, ∃ tabs spaces, (∀ c ∈ tabs, c = '\t') ∧ (∀ c ∈ spaces, c = ' ') ∧
      l = tabs ++ name ++ ':' :: (spaces ++ v) := by
  rw [dmidecode_match_eq env name text dmi_type handle hread] at hv
  obtain ⟨l, hl, hf⟩ := match_lines_sound name handle _ 0 v hv
  obtain ⟨-, tabs, spaces, ht, hs, hshape⟩ := field_value_shape name l v hf
  refine ⟨field_value_head name l v hf, fun hn => ?_,
    l, mem_text_lines_of_mem_terminated text l hl, tabs, spaces, ht, hs, hshape⟩
  apply terminated_lines_no_newline text l hl
  rw [hshape]
  simp [hn]

/-- Witness of C16: the `Manufacturer` line that ends with two spaces. -/
theorem dmidecode_match_result_shape_witness :
    "Acme  ".toList.head? ≠ some ' ' ∧ '\n' ∉ "Acme  ".toList ∧
    ∃ l ∈ text_lines trailing_text, ∃ tabs spaces,
      (∀ c ∈ tabs, c = '\t') ∧ (∀ c ∈ spaces, c = ' ') ∧
      l = tabs ++ "Manufacturer".toList ++ ':' :: (spaces ++ "Acme  ".toList) :=
  dmidecode_match_result_shape (env_dmidecode trailing_text) "Manufacturer".toList trailing_text
    "Acme  ".toList none none (by decide) (by decide)

/-! ### Lines without a leading tab -/

/-- C18, counterexample: the text has no line that begins with a tab, yet its
line `Manufacturer: Acme` gives the value `Acme` and contributes the handle
of its record. -/
theorem untabbed_line_counterexample :
    (∀ l ∈ text_lines untabbed_text, tab_indented l = false) ∧
    dmidecode_match (env_dmidecode untabbed_text) (some "Manufacturer".toList) none none =
      some "Acme".toList ∧
    dmidecode_match_value (env_dmidecode untabbed_text) (some "Manufacturer".toList) none none =
      some ⟨1, [1]⟩ := by
  decide

theorem field_value_any_tabs (name tabs rest : CStr) (htabs : ∀ c ∈ tabs, c = '\t')
    (hname : name.head? ≠ some '\t')
    (hno : handle_of (tabs ++ name ++ ':' :: rest) = none) :
    field_value name (tabs ++ name ++ ':' :: rest) = some (rest.dropWhile (· = ' ')) := by
  have hd : (tabs ++ name ++ ':' :: rest).dropWhile (· = '\t') = name ++ ':' :: rest := by
    clear hno
    rw [List.append_assoc]
    induction tabs with
    | nil =>
      cases name with
      | nil => simp
      | cons a t =>
        have ha : ¬ a = '\t' := fun e => hname (by simp [e])
        simp [List.dropWhile_cons, ha]
    | cons a t ih =>
      have ha : a = '\t' := htabs a (List.mem_cons_self _ _)
      simp only [List.cons_append, List.dropWhile_cons, ha, decide_True, if_true]
      exact ih fun c hc => htabs c (List.mem_cons_of_mem _ hc)
  unfold field_value
  rw [hd]
  have hp : (name ++ [':']).isPrefixOf (name ++ ':' :: rest) = true := by
    rw [List.isPrefixOf_iff_prefix]
    exact ⟨rest, by simp⟩
  rw [if_pos ⟨hno, hp⟩]
  have hdrop : (name ++ ':' :: rest).drop (name.length + 1) = rest := by
    have : name ++ ':' :: rest = (name ++ [':']) ++ rest := by simp
    rw [this]
    have hlen : (name ++ [':']).length = name.length + 1 := by simp
    rw [← hlen, List.drop_left]
  rw [hdrop]

/-- C18, amended: `dmidecode_match` and `dmidecode_match_value` take field
values from the lines that are not handle lines, whatever the number of their
leading tabs, none included: the tabs are stripped before the name is
compared, so a line without leading tab is a field line like an indented
one. -/
theorem field_lines_any_indentation (env : Env) (name text : CStr) (value : Option CStr)
    (dmi_type : Option Nat) (hread : dmidecode_read env dmi_type = some text) :
    dmidecode_match env (some name) dmi_type none =
      (terminated_lines text).findSome? (field_value name) ∧
    dmidecode_match_value env (some name) value dmi_type =
      hl_of_list (((preamble (terminated_lines text)).filter
          (value_matches name value)).map (fun _ => 0) ++
        (records (terminated_lines text)).flatMap fun r =>
          (r.2.filter (value_matches name value)).map fun _ => r.1) ∧
    (∀ tabs rest, (∀ c ∈ tabs, c = '\t') → name.head? ≠ some '\t' →
      handle_of (tabs ++ name ++ ':' :: rest) = none →
      field_value name (tabs ++ name ++ ':' :: rest) = some (rest.dropWhile (· = ' '))) := by
  refine ⟨?_, ?_, fun tabs rest => field_value_any_tabs name tabs rest⟩
  · rw [dmidecode_match_eq env name text dmi_type none hread, match_lines_no_filter]
  · rw [dmidecode_match_value_eq_of_list env name text value dmi_type hread,
      value_lines_records]

/-- Witness of C18: the record whose field line has no leading tab. -/
theorem field_lines_any_indentation_witness :
    field_value "Manufacturer".toList ([] ++ "Manufacturer".toList ++ ':' :: " Acme".toList) =
      some ((" Acme".toList).dropWhile (· = ' ')) :=
  (field_lines_any_indentation (env_dmidecode untabbed_text) "Manufacturer".toList
    untabbed_text none none (by decide)).2.2 [] " Acme".toList (by decide) (by decide)
    (by decide)

/-! ### Handles of the value matcher and of the enumerator -/

theorem records_handle_mem (ls : List CStr) (r : Nat × List CStr) (h : r ∈ records ls) :
    r.1 ∈ ls.filterMap handle_of := by
  induction ls with
  | nil => simp [records] at h
  | cons l rest ih =>
    cases hh : handle_of l with
    | some v =>
      simp only [records, hh, List.mem_cons] at h
      rw [List.filterMap_cons, hh]
      rcases h with rfl | h
      · exact List.mem_cons_self _ _
      · exact List.mem_cons_of_mem _ (ih h)
    | none =>
      simp only [records, hh] at h
      rw [List.filterMap_cons, hh]
      exact ih h

theorem value_handles_subset (env : Env) (name text : CStr) (value : Option CStr)
    (dmi_type : Option Nat) (hread : dmidecode_read env dmi_type = some text)
    (hpre : ∀ l ∈ preamble (terminated_lines text), value_matches name value l = false) :
    ∀ h ∈ hl_handles (dmidecode_match_value env (some name) value dmi_type),
      h ∈ hl_handles (dmidecode_handles env dmi_type) := by
  intro h hh
  rw [dmidecode_match_value_eq env name text value dmi_type hread, value_lines_records] at hh
  rw [dmidecode_handles_eq env text dmi_type hread, hl_handles_of_list]
  have hnil : (preamble (terminated_lines text)).filter (value_matches name value) = [] := by
    rw [List.filter_eq_nil_iff]
    intro l hl
    rw [hpre l hl]
    simp
  rw [hnil, List.map_nil, List.nil_append, List.mem_flatMap] at hh
  obtain ⟨r, hr, hm⟩ := hh
  rw [List.mem_map] at hm
  obtain ⟨-, -, rfl⟩ := hm
  exact records_handle_mem _ r hr

theorem preamble_nil_of_start (text : CStr)
    (h : ∃ l0 rest, text_lines text = l0 :: rest ∧ (handle_of l0).isSome = true) :
    preamble (terminated_lines text) = [] := by
  obtain ⟨l0, rest, hl, hs⟩ := h
  obtain ⟨t, ht⟩ := text_lines_eq_terminated_append text
  cases hterm : terminated_lines text with
  | nil => rfl
  | cons a ls =>
    rw [hterm, hl] at ht
    simp only [List.cons_append, List.cons.injEq] at ht
    rw [ht.1] at hs
    cases hv : handle_of a with
    | none => rw [hv] at hs; simp at hs
    | some v => simp [preamble, hv]

/-- C19, counterexample: a matching field line before the first handle line
contributes the initial handle 0, which the list of `dmidecode_handles` for
the same text (handle 1 only) does not contain. -/
theorem preamble_handle_counterexample :
    ¬ (∀ (env : Env) (name value : Option CStr) (dmi_type : Option Nat),
      ∀ h ∈ hl_handles (dmidecode_match_value env name value dmi_type),
        h ∈ hl_handles (dmidecode_handles env dmi_type)) := by
  intro h
  have h1 := h (env_dmidecode preamble_text) (some "Manufacturer".toList) none none 0
    (by decide)
  revert h1
  decide

/-- C19, amended: on a text in which no field line matching `name` and
`value` precedes the first handle line, in particular on a text that starts
with a handle line, every handle in the list `dmidecode_match_value` returns
is the handle of a record of that text: it also occurs in the list
`dmidecode_handles` returns for the same text. -/
theorem dmidecode_match_value_handles_known (env : Env) (name text : CStr)
    (value : Option CStr) (dmi_type : Option Nat)
    (hread : dmidecode_read env dmi_type = some text) :
    ((∀ l ∈ preamble (terminated_lines text), value_matches name value l = false) →
      ∀ h ∈ hl_handles (dmidecode_match_value env (some name) value dmi_type),
        h ∈ hl_handles (dmidecode_handles env dmi_type)) ∧
    ((∃ l0 rest, text_lines text = l0 :: rest ∧ (handle_of l0).isSome = true) →
      ∀ h ∈ hl_handles (dmidecode_match_value env (some name) value dmi_type),
        h ∈ hl_handles (dmidecode_handles env dmi_type)) := by
  refine ⟨value_handles_subset env name text value dmi_type hread, fun hs => ?_⟩
  apply value_handles_subset env name text value dmi_type hread
  rw [preamble_nil_of_start text hs]
  simp

/-- Witness of C19: on the two-record text of the specification the handle 2
of the second `Manufacturer` line is a handle of the text. -/
theorem dmidecode_match_value_handles_known_witness :
    2 ∈ hl_handles (dmidecode_match_value (env_dmidecode spec_text)
        (some "Manufacturer".toList) (some "Acme".toList) none) ∧
      2 ∈ hl_handles (dmidecode_handles (env_dmidecode spec_text) none) :=
  ⟨by decide,
    (dmidecode_match_value_handles_known (env_dmidecode spec_text) "Manufacturer".toList
      spec_text (some "Acme".toList) none (by decide)).2
      ⟨"Handle 0x0001, DMI type 2".toList, (text_lines spec_text).tail, by decide, by decide⟩
      2 (by decide)⟩

/-! ### The two readings of the line test -/

theorem lnot_gt0_iff (r : Int) : lnot (gt0 r) ≠ 0 ↔ r ≤ 0 := by
  unfold lnot gt0
  by_cases h : r > 0
  · simp [h]
  · simp only [h, if_false, if_true]
    constructor
    · intro _; omega
    · intro _; decide

theorem lnot_pos_iff (r : Int) : lnot r > 0 ↔ r = 0 := by
  unfold lnot
  by_cases h : r = 0
  · simp [h]
  · simp [h]

theorem paren_test_iff (name l : CStr) (ch : Nat) :
    (lnot (gt0 (sscanf_Handle l ch).1) ≠ 0 ∧
      strncmp (l.dropWhile (· = '\t')) name (strlen name) = 0 ∧
      charAt (l.dropWhile (· = '\t')) (strlen name) = ':') ↔
    (lnot (sscanf_Handle l ch).1 > 0 ∧
      strncmp (l.dropWhile (· = '\t')) name (strlen name) = 0 ∧
      charAt (l.dropWhile (· = '\t')) (strlen name) = ':') := by
  rw [lnot_gt0_iff, lnot_pos_iff]
  constructor
  · rintro ⟨h1, h2, h3⟩
    refine ⟨?_, h2, h3⟩
    cases hh : handle_of l with
    | some v =>
      rw [sscanf_Handle_of_handle l ch v hh] at h1
      simp at h1
    | none =>
      rcases sscanf_Handle_of_no_handle l ch hh with h0 | ⟨h0, hc⟩
      · rw [h0]
      · exfalso
        apply hc
        apply colon_mem_of_name_colon name l
        exact (name_colon_iff name _).1 ⟨h2, h3⟩
  · rintro ⟨h1, h2, h3⟩
    exact ⟨by rw [h1], h2, h3⟩

theorem dmidecode_match_loop_paren_eq (name : CStr) (handle : Option Nat) (fuel : Nat)
    (p : CStr) (ch : Nat) :
    dmidecode_match_loop_paren name handle fuel p ch =
      dmidecode_match_loop name handle fuel p ch := by
  induction fuel generalizing p ch with
  | zero => rfl
  | succ fuel ih =>
    simp only [dmidecode_match_loop_paren, dmidecode_match_loop]
    cases hs : strchr p '\n' with
    | none => rfl
    | some nx =>
      simp only
      rw [ih]
      apply if_congr _ rfl rfl
      have ht := paren_test_iff name (strend p '\n') ch
      constructor
      · rintro ⟨a, b, c, d⟩
        exact ⟨(ht.1 ⟨a, c, d⟩).1, b, c, d⟩
      · rintro ⟨a, b, c, d⟩
        exact ⟨(ht.2 ⟨a, c, d⟩).1, b, c, d⟩

theorem dmidecode_match_value_loop_paren_eq (name : CStr) (value : Option CStr) (fuel : Nat)
    (p : CStr) (hl : Option dmi_handle_list) (ch : Nat) :
    dmidecode_match_value_loop_paren name value fuel p hl ch =
      dmidecode_match_value_loop name value fuel p hl ch := by
  induction fuel generalizing p hl ch with
  | zero => rfl
  | succ fuel ih =>
    simp only [dmidecode_match_value_loop_paren, dmidecode_match_value_loop]
    cases hs : strchr p '\n' with
    | none => rfl
    | some nx =>
      simp only
      rw [ih]
      congr 1
      apply if_congr _ rfl rfl
      have ht := paren_test_iff name (strend p '\n') ch
      constructor
      · rintro ⟨a, b, c, d⟩
        exact ⟨(ht.1 ⟨a, b, c⟩).1, b, c, d⟩
      · rintro ⟨a, b, c, d⟩
        exact ⟨(ht.2 ⟨a, b, c⟩).1, b, c, d⟩

/-- C20: `dmidecode_match` and `dmidecode_match_value` give the same result
whether the line test is the written `!sscanf(...) > 0`, true only when
`sscanf` returns 0, or the parenthesised `!(sscanf(...) > 0)`, true also
when it returns EOF: a line on which the handle scan hits the end of the
input (the empty line, a proper prefix of `Handle 0x`) contains no colon and
cannot match a field name. -/
theorem line_test_parenthesised (env : Env) (name value : Option CStr)
    (dmi_type handle : Option Nat) :
    dmidecode_match_paren env name dmi_type handle = dmidecode_match env name dmi_type handle ∧
    dmidecode_match_value_paren env name value dmi_type =
      dmidecode_match_value env name value dmi_type ∧
    (∀ r : Int, lnot r > 0 ↔ r = 0) ∧
    (∀ r : Int, lnot (gt0 r) ≠ 0 ↔ r ≤ 0) ∧
    (∀ l ch, (sscanf_Handle l ch).1 = -1 → ':' ∉ l) ∧
    (sscanf_Handle [] 0).1 = -1 ∧ (sscanf_Handle "Handle 0".toList 0).1 = -1 := by
  refine ⟨?_, ?_, lnot_pos_iff, lnot_gt0_iff, fun l ch h => ?_, by decide, by decide⟩
  · unfold dmidecode_match_paren dmidecode_match
    cases name with
    | none => rfl
    | some name =>
      cases dmidecode_read env dmi_type with
      | none => rfl
      | some full => exact dmidecode_match_loop_paren_eq name handle _ full 0
  · unfold dmidecode_match_value_paren dmidecode_match_value
    cases name with
    | none => rfl
    | some name =>
      cases dmidecode_read env dmi_type with
      | none => rfl
      | some full => exact dmidecode_match_value_loop_paren_eq name value _ full none 0
  · cases hh : handle_of l with
    | some v =>
      rw [sscanf_Handle_of_handle l ch v hh] at h
      simp at h
    | none =>
      rcases sscanf_Handle_of_no_handle l ch hh with h0 | ⟨-, hc⟩
      · rw [h0] at h
        simp at h
      · exact hc

end DmiUtil
